import Mathlib

/-!
# eks-auth: token encoding, exec-credential envelope and control flow

A shallow embedding of `eks-auth.go`.  Go strings and byte slices are lists of
bytes (`Fin 256`); the functions of the Go standard library that the program
calls (`encoding/base64`, `encoding/json`, `net/url`, `net/http` headers) are
embedded as executable functions following their Go implementation.  The AWS
SDK (configuration loading, credential resolution, presigning) is an external
collaborator and enters as a parameter.
-/

set_option autoImplicit false

namespace EksAuth

/-! ## Bytes and strings -/

/-- A Go `byte`. -/
abbrev Byte := Fin 256

/-- A Go `string` (or `[]byte`): an arbitrary sequence of bytes. -/
abbrev Bytes := List Byte

/-- The bytes of an ASCII string literal. -/
def ascii (s : String) : Bytes :=
  s.toList.map (fun c => Fin.ofNat c.toNat)

/-! ## Constants of `eks-auth.go` -/

/-- The name of the header that carries the cluster name. -/
def K8S_AWS_ID_HEADER : Bytes := ascii "x-k8s-aws-id"

/-- The prefix of every token. -/
def TOKEN_PREFIX : Bytes := ascii "k8s-aws-v1."

/-- The `kind` of the envelope. -/
def KIND : Bytes := ascii "ExecCredential"

/-- The `apiVersion` of the envelope. -/
def API_VERSION : Bytes := ascii "client.authentication.k8s.io/v1beta1"

/-- The name of the expiry parameter of the query. -/
def EXPIRE_PARAM : Bytes := ascii "X-Amz-Expires"

/-- The value of the expiry parameter, in seconds. -/
def EXPIRE_PARAM_VALUE : Bytes := ascii "60"

/-! ## `encoding/base64` -/

/-- The type `base64.Encoding`: a 64-byte alphabet and an optional padding
character (`none` is `base64.NoPadding`). -/
structure Encoding where
  encode : Bytes
  padChar : Option Byte

/-- The constant `base64.NoPadding`. -/
def NoPadding : Option Byte := none

/-- The constant `base64.StdPadding`, the character `=`. -/
def StdPadding : Option Byte := some 61

/-- The URL-safe alphabet of RFC 4648 (`encodeURL` in Go). -/
def encodeURL : Bytes :=
  ascii "ABCDEFGHIJKLMNOPQRSTUVWXYZabcdefghijklmnopqrstuvwxyz0123456789-_"

/-- The value `base64.URLEncoding`. -/
def URLEncoding : Encoding := ⟨encodeURL, StdPadding⟩

/-- The method `Encoding.WithPadding`. -/
def Encoding.WithPadding (enc : Encoding) (padding : Option Byte) : Encoding :=
  ⟨enc.encode, padding⟩

/-- Table lookup `enc.encode[i]`. -/
def Encoding.sym (enc : Encoding) (i : Nat) : Byte :=
  enc.encode.getD i 0

/-- The padding bytes written after a final partial block: `k` copies of the
padding character, or nothing under `NoPadding`. -/
def Encoding.pad (enc : Encoding) (k : Nat) : Bytes :=
  match enc.padChar with
  | none => []
  | some p => List.replicate k p

/-- The method `Encoding.EncodeToString`: every full group of three source bytes
becomes four symbols; a final group of one or two bytes becomes two or three
symbols followed by padding, when the encoding pads. -/
def Encoding.EncodeToString (enc : Encoding) : Bytes → Bytes
  | [] => []
  | [a] =>
    let val := a.val <<< 16
    [enc.sym ((val >>> 18) &&& 0x3F), enc.sym ((val >>> 12) &&& 0x3F)] ++ enc.pad 2
  | [a, b] =>
    let val := (a.val <<< 16) ||| (b.val <<< 8)
    [enc.sym ((val >>> 18) &&& 0x3F), enc.sym ((val >>> 12) &&& 0x3F),
      enc.sym ((val >>> 6) &&& 0x3F)] ++ enc.pad 1
  | a :: b :: c :: rest =>
    let val := (a.val <<< 16) ||| (b.val <<< 8) ||| c.val
    enc.sym ((val >>> 18) &&& 0x3F) :: enc.sym ((val >>> 12) &&& 0x3F) ::
      enc.sym ((val >>> 6) &&& 0x3F) :: enc.sym (val &&& 0x3F) ::
      Encoding.EncodeToString enc rest

/-- The expression of `getToken` that builds the token from the presigned URL:
`TOKEN_PREFIX + base64.URLEncoding.WithPadding(base64.NoPadding).EncodeToString([]byte(url))`. -/
def encodeToken (url : Bytes) : Bytes :=
  TOKEN_PREFIX ++ (URLEncoding.WithPadding NoPadding).EncodeToString url

/-! ## Go maps from strings to string slices (`url.Values`, `http.Header`) -/

/-- A Go `map[string][]string`, as an association list. -/
abbrev StringsMap := List (Bytes × List Bytes)

/-- Map read `m[key]`; a missing key reads as the nil slice. -/
def StringsMap.get : StringsMap → Bytes → List Bytes
  | [], _ => []
  | (k, vs) :: rest, key => if k = key then vs else StringsMap.get rest key

/-- Map write `m[key] = vs`. -/
def StringsMap.set : StringsMap → Bytes → List Bytes → StringsMap
  | [], key, vs => [(key, vs)]
  | (k, ws) :: rest, key, vs =>
    if k = key then (k, vs) :: rest else (k, ws) :: StringsMap.set rest key vs

/-- The keys of a map. -/
def StringsMap.keys (m : StringsMap) : List Bytes :=
  m.map Prod.fst

/-! ## `net/url` -/

/-- The function `ishex`. -/
def ishex (c : Byte) : Bool :=
  (48 ≤ c.val && c.val ≤ 57) || (97 ≤ c.val && c.val ≤ 102) || (65 ≤ c.val && c.val ≤ 70)

/-- The function `unhex`. -/
def unhex (c : Byte) : Nat :=
  if 48 ≤ c.val && c.val ≤ 57 then c.val - 48
  else if 97 ≤ c.val && c.val ≤ 102 then c.val - 97 + 10
  else if 65 ≤ c.val && c.val ≤ 70 then c.val - 65 + 10
  else 0

/-- The table `upperhex`, indexed by a nibble. -/
def upperhex (n : Nat) : Byte :=
  (ascii "0123456789ABCDEF").getD n 0

/-- The function `shouldEscape(c, encodeQueryComponent)`: everything but the
unreserved characters (letters, digits, `-`, `_`, `.`, `~`) is escaped. -/
def shouldEscape (c : Byte) : Bool :=
  if (97 ≤ c.val && c.val ≤ 122) || (65 ≤ c.val && c.val ≤ 90) || (48 ≤ c.val && c.val ≤ 57) then
    false
  else if c.val = 45 || c.val = 95 || c.val = 46 || c.val = 126 then
    false
  else
    true

/-- The function `url.QueryEscape`: a space becomes `+`, any other byte to escape
becomes `%XX` in upper-case hexadecimal. -/
def QueryEscape : Bytes → Bytes
  | [] => []
  | c :: rest =>
    if c.val = 32 then 43 :: QueryEscape rest
    else if shouldEscape c then
      37 :: upperhex (c.val >>> 4) :: upperhex (c.val &&& 15) :: QueryEscape rest
    else c :: QueryEscape rest

/-- The function `url.QueryUnescape`: `%XX` becomes the byte `XX`, `+` becomes a
space; a `%` not followed by two hexadecimal digits is an error (`none`). -/
def QueryUnescape : Bytes → Option Bytes
  | [] => some []
  | c :: rest =>
    if c.val = 37 then
      match rest with
      | h1 :: h2 :: rest2 =>
        if ishex h1 && ishex h2 then
          (QueryUnescape rest2).map
            (fun t => Fin.ofNat ((unhex h1 <<< 4) ||| unhex h2) :: t)
        else none
      | _ => none
    else if c.val = 43 then (QueryUnescape rest).map (fun t => 32 :: t)
    else (QueryUnescape rest).map (fun t => c :: t)

/-- The pieces of a string between occurrences of a separator byte
(`strings.Cut` iterated until the string is exhausted). -/
def splitByte (sep : Byte) : Bytes → List Bytes
  | [] => [[]]
  | c :: rest =>
    if c = sep then [] :: splitByte sep rest
    else
      match splitByte sep rest with
      | [] => [[c]]
      | s :: ss => (c :: s) :: ss

/-- The function `strings.Cut(s, sep)` for a one-byte separator, without the
found flag: the text before the first separator and the text after it. -/
def cutByte (sep : Byte) : Bytes → Bytes × Bytes
  | [] => ([], [])
  | c :: rest =>
    if c = sep then ([], rest)
    else ((c :: (cutByte sep rest).1), (cutByte sep rest).2)

/-- The method `Values.Add`: `v[key] = append(v[key], value)`. -/
def Values.Add (v : StringsMap) (key value : Bytes) : StringsMap :=
  v.set key (v.get key ++ [value])

/-- One turn of the loop of `url.parseQuery` on the piece `key` of the query:
pieces holding `;`, empty pieces and pieces that fail to unescape are skipped,
any other piece `k=v` adds the unescaped value under the unescaped key. -/
def parseQueryStep (m : StringsMap) (key : Bytes) : StringsMap :=
  if key.contains 59 then m
  else if key = [] then m
  else
    match QueryUnescape (cutByte 61 key).1 with
    | none => m
    | some k =>
      match QueryUnescape (cutByte 61 key).2 with
      | none => m
      | some value => m.set k (m.get k ++ [value])

/-- The method `URL.Query`: the values of `url.ParseQuery(u.RawQuery)`, the
error dropped (malformed pairs are left out). -/
def parseQuery (query : Bytes) : StringsMap :=
  (splitByte 38 query).foldl parseQueryStep []

/-- Go string comparison `a < b`: lexicographic on bytes. -/
def strLess : Bytes → Bytes → Bool
  | [], [] => false
  | [], _ :: _ => true
  | _ :: _, [] => false
  | a :: as, b :: bs =>
    if a.val < b.val then true else if b.val < a.val then false else strLess as bs

/-- Insertion of a string into a sorted list of strings. -/
def insertString (k : Bytes) : List Bytes → List Bytes
  | [] => [k]
  | x :: xs => if strLess x k then x :: insertString k xs else k :: x :: xs

/-- The function `slices.Sort` on strings (the keys of a map are distinct, so
the sorted order does not depend on the sorting algorithm). -/
def sortStrings : List Bytes → List Bytes
  | [] => []
  | k :: ks => insertString k (sortStrings ks)

/-- The inner loop of `Values.Encode` for one key: every value appends
`keyEscaped=valueEscaped` to the buffer, after a `&` when the buffer is not
empty. -/
def encodeValues (keyEscaped : Bytes) : Bytes → List Bytes → Bytes
  | buf, [] => buf
  | buf, v :: vs =>
    encodeValues keyEscaped
      ((if buf.length > 0 then buf ++ [38] else buf) ++ keyEscaped ++ [61] ++ QueryEscape v) vs

/-- The outer loop of `Values.Encode` over the sorted keys. -/
def encodeKeys (v : StringsMap) : Bytes → List Bytes → Bytes
  | buf, [] => buf
  | buf, k :: ks => encodeKeys v (encodeValues (QueryEscape k) buf (v.get k)) ks

/-- The method `Values.Encode`: the "URL encoded" form `bar=baz&foo=quux`,
sorted by key. -/
def Values.Encode (v : StringsMap) : Bytes :=
  encodeKeys v [] (sortStrings v.keys)

/-! ## `net/textproto` and `net/http` headers -/

/-- The function `validHeaderFieldByte`: the token characters of RFC 7230. -/
def validHeaderFieldByte (c : Byte) : Bool :=
  (48 ≤ c.val && c.val ≤ 57) || (65 ≤ c.val && c.val ≤ 90) || (97 ≤ c.val && c.val ≤ 122) ||
    [33, 35, 36, 37, 38, 39, 42, 43, 45, 46, 94, 95, 96, 124, 126].contains c.val

/-- The canonicalizing loop of `canonicalMIMEHeaderKey`: upper case for the first
letter and for a letter after a dash, lower case for the others. -/
def canonLoop : Bool → Bytes → Bytes
  | _, [] => []
  | upper, c :: rest =>
    let c1 : Byte :=
      if upper && 97 ≤ c.val && c.val ≤ 122 then c - 32
      else if !upper && 65 ≤ c.val && c.val ≤ 90 then c + 32
      else c
    c1 :: canonLoop (c1 == 45) rest

/-- The function `canonicalMIMEHeaderKey` (the result string only): a key with a
byte that is not a token character is returned unchanged. -/
def canonicalMIMEHeaderKey (a : Bytes) : Bytes :=
  if a.all (fun c => validHeaderFieldByte c || c == 32) then
    if a.any (fun c => !validHeaderFieldByte c) then a else canonLoop true a
  else a

/-- The quick check of `textproto.CanonicalMIMEHeaderKey` over the suffix still
to scan: the key `s` is returned as it is when an invalid byte is met or when no
letter has the wrong case. -/
def canonicalScan (s : Bytes) : Bool → Bytes → Bytes
  | _, [] => s
  | upper, c :: rest =>
    if !validHeaderFieldByte c then s
    else if upper && 97 ≤ c.val && c.val ≤ 122 then canonicalMIMEHeaderKey s
    else if !upper && 65 ≤ c.val && c.val ≤ 90 then canonicalMIMEHeaderKey s
    else canonicalScan s (c == 45) rest

/-- The function `textproto.CanonicalMIMEHeaderKey`. -/
def CanonicalMIMEHeaderKey (s : Bytes) : Bytes :=
  canonicalScan s true s

/-- The method `Header.Add`: the value is appended under the canonical key. -/
def Header.Add (h : StringsMap) (key value : Bytes) : StringsMap :=
  h.set (CanonicalMIMEHeaderKey key) (h.get (CanonicalMIMEHeaderKey key) ++ [value])

/-- The method `Header.Values`: all values under the canonical key. -/
def Header.Values (h : StringsMap) (key : Bytes) : List Bytes :=
  h.get (CanonicalMIMEHeaderKey key)

/-! ## The request and the build step of the signing pipeline -/

/-- The fields of `url.URL` that a request carries. -/
structure URL where
  Scheme : Bytes
  Host : Bytes
  Path : Bytes
  RawQuery : Bytes
deriving DecidableEq, Repr

/-- The type `smithyhttp.Request`: method, URL and header set. -/
structure Request where
  Method : Bytes
  URL : URL
  Header : StringsMap
deriving DecidableEq, Repr

/-- The dynamic value of `in.Request` in a `middleware.BuildInput`: an HTTP
request, or a value of some other type. -/
inductive BuildRequest where
  | http (req : Request)
  | other (v : Nat)
deriving DecidableEq, Repr

/-- The type `middleware.BuildInput`. -/
structure BuildInput where
  Request : BuildRequest
deriving DecidableEq, Repr

/-- An `error` value, by its message. -/
abbrev Error := Bytes

/-- The type `middleware.BuildOutput`, with the metadata that a handler returns. -/
structure BuildOutput where
  Result : Bytes
deriving DecidableEq, Repr

/-- The type `middleware.BuildHandler`: the rest of the pipeline after a build
step. -/
abbrev BuildHandler := BuildInput → Except Error BuildOutput

/-- The type `middleware.BuildMiddleware`, by its `HandleBuild` method. -/
abbrev BuildMiddleware := BuildInput → BuildHandler → Except Error BuildOutput

/-- The mutation that the "AddEKSId" step performs on an HTTP request: the query
is parsed, `X-Amz-Expires=60` is added, the query is encoded again, and the
header `x-k8s-aws-id` is added with the cluster name. -/
def augment (clusterName : Bytes) (req : Request) : Request :=
  let query := parseQuery req.URL.RawQuery
  let query := Values.Add query EXPIRE_PARAM EXPIRE_PARAM_VALUE
  { req with
    URL := { req.URL with RawQuery := Values.Encode query }
    Header := Header.Add req.Header K8S_AWS_ID_HEADER clusterName }

/-- The build middleware "AddEKSId" that `getToken` registers: an HTTP request is
augmented in place, any other request value is left alone, and in both cases
the input is handed to the next handler. -/
def AddEKSId (clusterName : Bytes) : BuildMiddleware :=
  fun input next =>
    match input.Request with
    | .http req => next ⟨.http (augment clusterName req)⟩
    | .other _ => next input

/-! ## `getToken` -/

/-- The result type `v4.PresignedHTTPRequest`. -/
structure PresignedHTTPRequest where
  URL : Bytes
  Method : Bytes
  SignedHeader : StringsMap
deriving DecidableEq, Repr

/-- The presign client of the SDK, `PresignGetCallerIdentity` applied to the
client and the empty input: given the build middleware registered through the
presign options, it returns the presigned request or an error. -/
abbrev PresignClient := BuildMiddleware → Except Error PresignedHTTPRequest

/-- The function `getToken`. -/
def getToken (presignSts : PresignClient) (clusterName : Bytes) : Except Error Bytes :=
  match presignSts (AddEKSId clusterName) with
  | .error err => .error err
  | .ok req => .ok (encodeToken req.URL)

/-! ## `unicode/utf8` -/

/-- The constant `utf8.RuneError`, U+FFFD. -/
def RuneError : Nat := 0xFFFD

/-- The table `utf8.first`: information about the first byte of an encoding.
`0xF0` is ASCII, `0xF1` is an invalid first byte; otherwise the low three bits
are the length and the high four bits select the range of the second byte. -/
def first (b : Byte) : Nat :=
  if b.val < 0x80 then 0xF0
  else if b.val < 0xC2 then 0xF1
  else if b.val < 0xE0 then 0x02
  else if b.val = 0xE0 then 0x13
  else if b.val < 0xED then 0x03
  else if b.val = 0xED then 0x23
  else if b.val < 0xF0 then 0x03
  else if b.val = 0xF0 then 0x34
  else if b.val < 0xF4 then 0x04
  else if b.val = 0xF4 then 0x44
  else 0xF1

/-- The table `utf8.acceptRanges`: lowest and highest valid second byte. -/
def acceptRanges (i : Nat) : Nat × Nat :=
  match i with
  | 0 => (0x80, 0xBF)
  | 1 => (0xA0, 0xBF)
  | 2 => (0x80, 0x9F)
  | 3 => (0x90, 0xBF)
  | 4 => (0x80, 0x8F)
  | _ => (0, 0)

/-- The function `utf8.DecodeRuneInString`: the first rune of `s` and its width
in bytes; an invalid encoding gives `(RuneError, 1)`, the empty string
`(RuneError, 0)`. -/
def DecodeRuneInString (s : Bytes) : Nat × Nat :=
  match s with
  | [] => (RuneError, 0)
  | s0 :: t =>
    let x := first s0
    if x ≥ 0xF0 then
      (if x &&& 1 = 0 then s0.val else RuneError, 1)
    else
      let sz := x &&& 7
      let accept := acceptRanges (x >>> 4)
      if s.length < sz then (RuneError, 1)
      else
        match t with
        | [] => (RuneError, 1)
        | s1 :: t1 =>
          if s1.val < accept.1 || accept.2 < s1.val then (RuneError, 1)
          else if sz ≤ 2 then (((s0.val &&& 0x1F) <<< 6) ||| (s1.val &&& 0x3F), 2)
          else
            match t1 with
            | [] => (RuneError, 1)
            | s2 :: t2 =>
              if s2.val < 0x80 || 0xBF < s2.val then (RuneError, 1)
              else if sz ≤ 3 then
                (((s0.val &&& 0x0F) <<< 12) ||| ((s1.val &&& 0x3F) <<< 6) ||| (s2.val &&& 0x3F), 3)
              else
                match t2 with
                | [] => (RuneError, 1)
                | s3 :: _ =>
                  if s3.val < 0x80 || 0xBF < s3.val then (RuneError, 1)
                  else
                    (((s0.val &&& 0x07) <<< 18) ||| ((s1.val &&& 0x3F) <<< 12) |||
                      ((s2.val &&& 0x3F) <<< 6) ||| (s3.val &&& 0x3F), 4)

/-- Validity of UTF-8 rune by rune: every byte outside ASCII must start an
encoding that `DecodeRuneInString` accepts; `fuel` bounds the number of runes. -/
def validLoop : Nat → Bytes → Bool
  | _, [] => true
  | 0, _ :: _ => false
  | fuel + 1, b :: rest =>
    if b.val < 0x80 then validLoop fuel rest
    else if (DecodeRuneInString ((b :: rest).take 4)).2 = 1 then false
    else validLoop fuel ((b :: rest).drop (DecodeRuneInString ((b :: rest).take 4)).2)

/-- Whether `s` consists entirely of valid UTF-8-encoded runes, as
`utf8.ValidString` reports it. -/
def ValidString (s : Bytes) : Bool :=
  validLoop s.length s

/-! ## `encoding/json` -/

/-- The table `htmlSafeSet`: the ASCII bytes that a JSON string holds without
escaping when HTML escaping is on: all from space to DEL except the double
quote, the backslash, `<`, `>` and `&`. -/
def htmlSafeSet (b : Byte) : Bool :=
  0x20 ≤ b.val && b.val < 0x80 &&
    !(b.val = 34 || b.val = 92 || b.val = 60 || b.val = 62 || b.val = 38)

/-- The table `hex` of `encoding/json`, indexed by a nibble. -/
def hex (n : Nat) : Byte :=
  (ascii "0123456789abcdef").getD n 0

/-- The escape that `appendString` writes for an ASCII byte outside
`htmlSafeSet`. -/
def escapeByte (b : Byte) : Bytes :=
  if b.val = 92 || b.val = 34 then [92, b]
  else if b.val = 8 then [92, 98]
  else if b.val = 12 then [92, 102]
  else if b.val = 10 then [92, 110]
  else if b.val = 13 then [92, 114]
  else if b.val = 9 then [92, 116]
  else [92, 117, 48, 48, hex (b.val >>> 4), hex (b.val &&& 0xF)]

/-- The loop of `appendString` with HTML escaping on, over the source still to
encode; `fuel` bounds the number of turns.  Safe ASCII bytes and valid
multi-byte runes are copied, other ASCII bytes are escaped, an invalid byte
becomes `\ufffd`, and U+2028 and U+2029 become `\u2028` and `\u2029`. -/
def appendStringLoop : Nat → Bytes → Bytes
  | _, [] => []
  | 0, _ :: _ => []
  | fuel + 1, b :: rest =>
    if b.val < 0x80 then
      if htmlSafeSet b then b :: appendStringLoop fuel rest
      else escapeByte b ++ appendStringLoop fuel rest
    else
      let c := (DecodeRuneInString ((b :: rest).take 4)).1
      let size := (DecodeRuneInString ((b :: rest).take 4)).2
      if c = RuneError ∧ size = 1 then
        [92, 117, 102, 102, 102, 100] ++ appendStringLoop fuel rest
      else if c = 0x2028 ∨ c = 0x2029 then
        [92, 117, 50, 48, 50, hex (c &&& 0xF)] ++ appendStringLoop fuel ((b :: rest).drop size)
      else
        (b :: rest).take size ++ appendStringLoop fuel ((b :: rest).drop size)

/-- The function `appendString(dst, src, true)` on an empty destination: the
JSON string literal for `src`. -/
def appendString (src : Bytes) : Bytes :=
  [34] ++ appendStringLoop src.length src ++ [34]

/-- The type `ExecCredential` of `eks-auth.go`; a nil `Status` map is `none`. -/
structure ExecCredential where
  ApiVersion : Bytes
  Kind : Bytes
  Status : Option (List (Bytes × Bytes))

/-- Insertion of a map entry into a list of entries sorted by key. -/
def insertEntry (e : Bytes × Bytes) : List (Bytes × Bytes) → List (Bytes × Bytes)
  | [] => [e]
  | x :: xs => if strLess x.1 e.1 then x :: insertEntry e xs else e :: x :: xs

/-- The entries of a map sorted by key, as the map encoder visits them. -/
def sortEntries : List (Bytes × Bytes) → List (Bytes × Bytes)
  | [] => []
  | e :: es => insertEntry e (sortEntries es)

/-- The loop of the map encoder over the sorted entries: `"key":"value"`,
separated by commas. -/
def encodeEntries : Bool → List (Bytes × Bytes) → Bytes
  | _, [] => []
  | isFirst, (k, v) :: es =>
    (if isFirst then [] else [44]) ++ appendString k ++ [58] ++ appendString v ++
      encodeEntries false es

/-- The encoder of `encoding/json` for a `map[string]string`. -/
def mapEncoder : Option (List (Bytes × Bytes)) → Bytes
  | none => ascii "null"
  | some m => [123] ++ encodeEntries true (sortEntries m) ++ [125]

/-- The function `json.Marshal` at the type `ExecCredential`: the fields in
declaration order under their tag names; no value of this type makes the
encoder fail. -/
def Marshal (v : ExecCredential) : Except Error Bytes :=
  .ok ([123] ++ ascii "\"apiVersion\":" ++ appendString v.ApiVersion ++
    [44] ++ ascii "\"kind\":" ++ appendString v.Kind ++
    [44] ++ ascii "\"status\":" ++ mapEncoder v.Status ++ [125])

/-! ## `getExecAuth` -/

/-- The body of `getExecAuth`, over the marshalling function it calls: the
credential is built from the token and marshalled, and the encoded bytes or the
error are returned. -/
def getExecAuthWith (marshal : ExecCredential → Except Error Bytes) (token : Bytes) :
    Except Error Bytes :=
  let execAuth : ExecCredential :=
    { ApiVersion := API_VERSION, Kind := KIND, Status := some [(ascii "token", token)] }
  match marshal execAuth with
  | .ok encoded => .ok encoded
  | .error err => .error err

/-- The function `getExecAuth`: its body with `json.Marshal`. -/
def getExecAuth (token : Bytes) : Except Error Bytes :=
  getExecAuthWith Marshal token

/-! ## `main` -/

/-- The values of the command-line flags after `flag.Parse`; a flag that is
absent has its default, the empty string. -/
structure Flags where
  region : Bytes
  clusterName : Bytes
  roleArn : Bytes

/-- The credentials provider of a configuration: the one that
`config.LoadDefaultConfig` resolved, or the cached assume-role provider that
`main` builds from an STS client (given by its region and credentials) and a
role ARN. -/
inductive CredentialsProvider where
  | resolved (id : Nat)
  | assumeRole (clientRegion : Bytes) (clientCredentials : CredentialsProvider) (roleArn : Bytes)

/-- The fields of `aws.Config` that `main` reads or writes. -/
structure Config where
  Region : Bytes
  Credentials : CredentialsProvider

/-- The collaborators of `main` outside the program: the result of
`config.LoadDefaultConfig`, the presign client that the SDK builds for a
configuration, and `json.Marshal` at the type `ExecCredential`.  The program
runs in a world whose `Marshal` is the function `Marshal` above; the control
flow of `main` is stated for any behaviour of the three. -/
structure World where
  LoadDefaultConfig : Except Error Config
  Presign : Config → PresignClient
  Marshal : ExecCredential → Except Error Bytes

/-- What a run of `main` does, in order: the usage text of `flag.Usage` (written
to the error stream), the three fallible steps it calls, and the lines it
writes to the error stream (`println`) and to standard output (`fmt.Println`). -/
inductive Event where
  | usage
  | loadConfig
  | getToken
  | getExecAuth
  | stderr (line : Bytes)
  | stdout (line : Bytes)
deriving DecidableEq

/-- The line that the builtin `println(msg, err.Error())` writes: the operands
separated by a space, then a newline. -/
def println (msg err : Bytes) : Bytes :=
  msg ++ [32] ++ err ++ [10]

/-- The configuration of the STS client that `main` hands to `getToken`: the
region flag, when given, replaces the region; the role flag, when given,
replaces the credentials by the assume-role provider. -/
def clientConfig (flags : Flags) (cfg : Config) : Config :=
  let cfg1 : Config := if flags.region ≠ [] then { cfg with Region := flags.region } else cfg
  if flags.roleArn ≠ [] then
    { cfg1 with Credentials := .assumeRole cfg1.Region cfg1.Credentials flags.roleArn }
  else cfg1

/-- The function `main`, after `flag.Parse`: the trace of the run.  The call
`getExecAuth(token)` is `getExecAuthWith w.Marshal token`. -/
def main (w : World) (flags : Flags) : List Event :=
  if flags.clusterName = [] then [.usage]
  else
    match w.LoadDefaultConfig with
    | .error err => [.loadConfig, .stderr (println (ascii "Failed to load AWS config: ") err)]
    | .ok cfg =>
      match getToken (w.Presign (clientConfig flags cfg)) flags.clusterName with
      | .error err =>
        [.loadConfig, .getToken, .stderr (println (ascii "Failed to fetch STS token: ") err)]
      | .ok token =>
        match getExecAuthWith w.Marshal token with
        | .error err =>
          [.loadConfig, .getToken, .getExecAuth,
            .stderr (println (ascii "Failed to generate ExecCredential: ") err)]
        | .ok auth => [.loadConfig, .getToken, .getExecAuth, .stdout (auth ++ [10])]

/-- The lines written to standard output in a run. -/
def stdoutOf : List Event → List Bytes
  | [] => []
  | .stdout line :: es => line :: stdoutOf es
  | _ :: es => stdoutOf es

/-- The lines written to the error stream by `println` in a run. -/
def stderrOf : List Event → List Bytes
  | [] => []
  | .stderr line :: es => line :: stderrOf es
  | _ :: es => stderrOf es

/-- The fallible steps called in a run, in order. -/
def stepsOf : List Event → List Event
  | [] => []
  | .loadConfig :: es => .loadConfig :: stepsOf es
  | .getToken :: es => .getToken :: stepsOf es
  | .getExecAuth :: es => .getExecAuth :: stepsOf es
  | _ :: es => stepsOf es

/-! ## Decoding a token (the verifying side)

The program has no decoder.  The definitions below are the decoding of
RFC 4648 for an alphabet without padding, in its strict form: a symbol outside
the alphabet, a lone trailing symbol and non-zero trailing bits are rejected.
They are what the token is checked against. -/

/-- The position of a symbol in the alphabet of an encoding. -/
def Encoding.index (enc : Encoding) (c : Byte) : Option Nat :=
  if enc.encode.indexOf c < 64 then some (enc.encode.indexOf c) else none

/-- Strict decoding of unpadded base64: four symbols give three bytes, a final
group of two or three symbols gives one or two bytes. -/
def Encoding.decodeUnpadded (enc : Encoding) : Bytes → Option Bytes
  | [] => some []
  | [_] => none
  | [c0, c1] =>
    match enc.index c0, enc.index c1 with
    | some i0, some i1 =>
      let val := (i0 <<< 18) ||| (i1 <<< 12)
      if i1 &&& 0xF = 0 then some [Fin.ofNat (val >>> 16)] else none
    | _, _ => none
  | [c0, c1, c2] =>
    match enc.index c0, enc.index c1, enc.index c2 with
    | some i0, some i1, some i2 =>
      let val := (i0 <<< 18) ||| (i1 <<< 12) ||| (i2 <<< 6)
      if i2 &&& 0x3 = 0 then some [Fin.ofNat (val >>> 16), Fin.ofNat (val >>> 8)] else none
    | _, _, _ => none
  | c0 :: c1 :: c2 :: c3 :: rest =>
    match enc.index c0, enc.index c1, enc.index c2, enc.index c3 with
    | some i0, some i1, some i2, some i3 =>
      let val := (i0 <<< 18) ||| (i1 <<< 12) ||| (i2 <<< 6) ||| i3
      (Encoding.decodeUnpadded enc rest).map
        (fun t => Fin.ofNat (val >>> 16) :: Fin.ofNat (val >>> 8) :: Fin.ofNat val :: t)
    | _, _, _, _ => none

/-- The function `strings.CutPrefix`, the found flag folded into the option. -/
def cutPrefix (s pre : Bytes) : Option Bytes :=
  if pre.isPrefixOf s then some (s.drop pre.length) else none

/-- Decoding of a token: the prefix `k8s-aws-v1.` is stripped and the remainder
is decoded as unpadded URL-safe base64. -/
def decodeToken (token : Bytes) : Option Bytes :=
  (cutPrefix token (ascii "k8s-aws-v1.")).bind (URLEncoding.WithPadding NoPadding).decodeUnpadded

/-! ## Reading the envelope (the consuming side)

The program has no JSON reader.  The definitions below read the fragment of
JSON (RFC 8259) made of strings and objects, with insignificant white space;
they are what the envelope is checked against. -/

/-- A JSON value of the fragment: a string or an object, the members of an
object in their order of appearance. -/
inductive JSON where
  | str (s : Bytes)
  | obj (members : List (Bytes × JSON))

/-- The function `utf8.AppendRune` for a rune of the basic plane. -/
def encodeRune (r : Nat) : Bytes :=
  if r < 0x80 then [Fin.ofNat r]
  else if r < 0x800 then [Fin.ofNat (0xC0 ||| (r >>> 6)), Fin.ofNat (0x80 ||| (r &&& 0x3F))]
  else
    [Fin.ofNat (0xE0 ||| (r >>> 12)), Fin.ofNat (0x80 ||| ((r >>> 6) &&& 0x3F)),
      Fin.ofNat (0x80 ||| (r &&& 0x3F))]

/-- The byte that a two-character escape stands for. -/
def simpleEscape (e : Byte) : Option Byte :=
  if e.val = 34 then some 34
  else if e.val = 92 then some 92
  else if e.val = 47 then some 47
  else if e.val = 98 then some 8
  else if e.val = 102 then some 12
  else if e.val = 110 then some 10
  else if e.val = 114 then some 13
  else if e.val = 116 then some 9
  else none

/-- Reading of a string literal after its opening quote: the string it holds and
the text after the closing quote.  An escape `\uXXXX` stands for the UTF-8
encoding of the code point; surrogates and unescaped control characters are
rejected. -/
def parseStringBody : Bytes → Option (Bytes × Bytes)
  | [] => none
  | c :: rest =>
    if c.val = 34 then some ([], rest)
    else if c.val = 92 then
      match rest with
      | [] => none
      | e :: rest1 =>
        if e.val = 117 then
          match rest1 with
          | h1 :: h2 :: h3 :: h4 :: rest2 =>
            if ishex h1 && ishex h2 && ishex h3 && ishex h4 then
              let cu := unhex h1 * 4096 + unhex h2 * 256 + unhex h3 * 16 + unhex h4
              if 0xD800 ≤ cu && cu ≤ 0xDFFF then none
              else (parseStringBody rest2).map (fun p => (encodeRune cu ++ p.1, p.2))
            else none
          | _ => none
        else
          match simpleEscape e with
          | some b => (parseStringBody rest1).map (fun p => (b :: p.1, p.2))
          | none => none
    else if c.val < 32 then none
    else (parseStringBody rest).map (fun p => (c :: p.1, p.2))

/-- Insignificant white space is skipped. -/
def skipSpace : Bytes → Bytes
  | [] => []
  | c :: rest =>
    if c.val = 32 || c.val = 9 || c.val = 10 || c.val = 13 then skipSpace rest else c :: rest

mutual

/-- Reading of a value: the value and the text after it; `fuel` bounds the
number of nested calls. -/
def parseValue : Nat → Bytes → Option (JSON × Bytes)
  | 0, _ => none
  | fuel + 1, s =>
    match skipSpace s with
    | [] => none
    | c :: rest =>
      if c.val = 34 then (parseStringBody rest).map (fun p => (JSON.str p.1, p.2))
      else if c.val = 123 then
        match skipSpace rest with
        | [] => none
        | d :: rest1 =>
          if d.val = 125 then some (JSON.obj [], rest1)
          else (parseMembers fuel (d :: rest1)).map (fun p => (JSON.obj p.1, p.2))
      else none

/-- Reading of the members of an object up to its closing brace. -/
def parseMembers : Nat → Bytes → Option (List (Bytes × JSON) × Bytes)
  | 0, _ => none
  | fuel + 1, s =>
    match skipSpace s with
    | [] => none
    | c :: rest =>
      if c.val = 34 then
        match parseStringBody rest with
        | none => none
        | some (key, rest1) =>
          match skipSpace rest1 with
          | [] => none
          | d :: rest2 =>
            if d.val = 58 then
              match parseValue fuel rest2 with
              | none => none
              | some (v, rest3) =>
                match skipSpace rest3 with
                | [] => none
                | e :: rest4 =>
                  if e.val = 125 then some ([(key, v)], rest4)
                  else if e.val = 44 then
                    (parseMembers fuel rest4).map (fun p => ((key, v) :: p.1, p.2))
                  else none
            else none
      else none

end

/-- Reading of a whole JSON text: one value, and only white space after it. -/
def parseJSON (s : Bytes) : Option JSON :=
  match parseValue s.length s with
  | none => none
  | some (v, rest) => if skipSpace rest = [] then some v else none

/-- The loop of the coercion of a Go string to valid UTF-8 that `encoding/json`
applies to string values: every byte that does not start a valid encoding is
replaced by the encoding of U+FFFD. -/
def coerceLoop : Nat → Bytes → Bytes
  | _, [] => []
  | 0, _ :: _ => []
  | fuel + 1, b :: rest =>
    if b.val < 0x80 then b :: coerceLoop fuel rest
    else if (DecodeRuneInString ((b :: rest).take 4)).2 = 1 then
      [0xEF, 0xBF, 0xBD] ++ coerceLoop fuel rest
    else
      (b :: rest).take (DecodeRuneInString ((b :: rest).take 4)).2 ++
        coerceLoop fuel ((b :: rest).drop (DecodeRuneInString ((b :: rest).take 4)).2)

/-- The coercion of a Go string to valid UTF-8. -/
def coerceUTF8 (s : Bytes) : Bytes :=
  coerceLoop s.length s

/-! ## The encoded query, piece by piece -/

/-- Whether the encoded query string `rawQuery` has the parameter `key` with
the value `value`: `key=value` is one of its pieces between `&`. -/
def queryHas (rawQuery key value : Bytes) : Bool :=
  (splitByte 38 rawQuery).contains (key ++ [61] ++ value)

/-- The pieces `key=value` of the encoded query, in the order in which
`Values.Encode` writes them. -/
def querySegments (v : StringsMap) (keys : List Bytes) : List Bytes :=
  keys.flatMap (fun k => (v.get k).map (fun x => QueryEscape k ++ [61] ++ QueryEscape x))

/-- A buffer after the pieces `segs` have been appended to it, each after a `&`
when the buffer is not empty. -/
def joinOnto (buf : Bytes) (segs : List Bytes) : Bytes :=
  segs.foldl (fun b s => (if b.length > 0 then b ++ [38] else b) ++ s) buf

/-! ## Lemmas: base64 output -/

theorem and_63 (n : Nat) : n &&& 0x3F = n % 64 :=
  Nat.and_pow_two_sub_one_eq_mod n 6

theorem sym_mem_encodeURL (n : Nat) (h : n < 64) :
    (URLEncoding.WithPadding NoPadding).sym n ∈ encodeURL := by
  have key : ∀ i : Fin 64, (URLEncoding.WithPadding NoPadding).sym i.val ∈ encodeURL := by decide
  exact key ⟨n, h⟩

theorem sym_mod_mem (n : Nat) :
    (URLEncoding.WithPadding NoPadding).sym (n % 64) ∈ encodeURL :=
  sym_mem_encodeURL _ (Nat.mod_lt _ (by norm_num))

/-- Every symbol of an unpadded URL-safe encoding comes from the alphabet. -/
theorem encodeToString_mem (u : Bytes) :
    ∀ c ∈ (URLEncoding.WithPadding NoPadding).EncodeToString u, c ∈ encodeURL := by
  induction u using Encoding.EncodeToString.induct (URLEncoding.WithPadding NoPadding) with
  | case1 => simp [Encoding.EncodeToString]
  | case2 a =>
    intro c hc
    simp only [Encoding.EncodeToString, Encoding.pad, Encoding.WithPadding, NoPadding,
      List.append_nil, List.mem_cons, List.mem_singleton, List.not_mem_nil, or_false,
      and_63] at hc
    rcases hc with rfl | rfl <;> exact sym_mod_mem _
  | case3 a b =>
    intro c hc
    simp only [Encoding.EncodeToString, Encoding.pad, Encoding.WithPadding, NoPadding,
      List.append_nil, List.mem_cons, List.mem_singleton, List.not_mem_nil, or_false,
      and_63] at hc
    rcases hc with rfl | rfl | rfl <;> exact sym_mod_mem _
  | case4 a b c rest ih =>
    intro x hx
    simp only [Encoding.EncodeToString, List.mem_cons, and_63] at hx
    rcases hx with rfl | rfl | rfl | rfl | hx
    · exact sym_mod_mem _
    · exact sym_mod_mem _
    · exact sym_mod_mem _
    · exact sym_mod_mem _
    · exact ih x hx

/-- No byte of a token is the padding character `=`. -/
theorem encodeToken_no_pad (u : Bytes) : (61 : Byte) ∉ encodeToken u := by
  intro h
  rcases List.mem_append.mp h with h | h
  · revert h; decide
  · have := encodeToString_mem u _ h
    revert this; decide

/-! ## Lemmas: base64 round trip -/

theorem or_eq_add_of_dvd (k a b : Nat) (ha : 2 ^ k ∣ a) (hb : b < 2 ^ k) : a ||| b = a + b := by
  obtain ⟨q, rfl⟩ := ha
  exact (Nat.mul_add_lt_is_or hb q).symm

theorem pack2 (a b : Nat) (hb : b < 256) : (a <<< 16) ||| (b <<< 8) = a * 65536 + b * 256 := by
  rw [Nat.shiftLeft_eq, Nat.shiftLeft_eq]
  exact or_eq_add_of_dvd 16 _ _ (Dvd.intro_left a rfl) (by omega)

theorem pack3 (a b c : Nat) (hb : b < 256) (hc : c < 256) :
    (a <<< 16) ||| (b <<< 8) ||| c = a * 65536 + b * 256 + c := by
  rw [pack2 a b hb]
  exact or_eq_add_of_dvd 8 _ _ (by norm_num; omega) (by omega)

theorem unpack2 (i0 i1 : Nat) (h1 : i1 < 64) :
    (i0 <<< 18) ||| (i1 <<< 12) = i0 * 262144 + i1 * 4096 := by
  rw [Nat.shiftLeft_eq, Nat.shiftLeft_eq]
  exact or_eq_add_of_dvd 18 _ _ (Dvd.intro_left i0 rfl) (by omega)

theorem unpack3 (i0 i1 i2 : Nat) (h1 : i1 < 64) (h2 : i2 < 64) :
    (i0 <<< 18) ||| (i1 <<< 12) ||| (i2 <<< 6) = i0 * 262144 + i1 * 4096 + i2 * 64 := by
  rw [unpack2 i0 i1 h1, Nat.shiftLeft_eq]
  exact or_eq_add_of_dvd 12 _ _ (by norm_num; omega) (by omega)

theorem unpack4 (i0 i1 i2 i3 : Nat) (h1 : i1 < 64) (h2 : i2 < 64) (h3 : i3 < 64) :
    (i0 <<< 18) ||| (i1 <<< 12) ||| (i2 <<< 6) ||| i3 =
      i0 * 262144 + i1 * 4096 + i2 * 64 + i3 := by
  rw [unpack3 i0 i1 i2 h1 h2]
  exact or_eq_add_of_dvd 6 _ _ (by norm_num; omega) (by omega)

theorem index_sym (n : Nat) :
    (URLEncoding.WithPadding NoPadding).index ((URLEncoding.WithPadding NoPadding).sym (n % 64)) =
      some (n % 64) := by
  have key : ∀ i : Fin 64,
      (URLEncoding.WithPadding NoPadding).index ((URLEncoding.WithPadding NoPadding).sym i.val) =
        some i.val := by decide
  exact key ⟨n % 64, Nat.mod_lt _ (by norm_num)⟩

theorem byte_ofNat (a : Byte) (n : Nat) (h : n % 256 = a.val) : (Fin.ofNat n : Byte) = a := by
  apply Fin.ext
  simpa [Fin.ofNat] using h

theorem pack2_val (a b : Byte) :
    (a.val <<< 16) ||| (b.val <<< 8) = a.val * 65536 + b.val * 256 :=
  pack2 _ _ b.isLt

theorem pack3_val (a b c : Byte) :
    (a.val <<< 16) ||| (b.val <<< 8) ||| c.val = a.val * 65536 + b.val * 256 + c.val :=
  pack3 _ _ _ b.isLt c.isLt

theorem unpack2_mod (i0 n1 : Nat) :
    (i0 <<< 18) ||| ((n1 % 64) <<< 12) = i0 * 262144 + (n1 % 64) * 4096 :=
  unpack2 _ _ (Nat.mod_lt _ (by norm_num))

theorem unpack3_mod (i0 n1 n2 : Nat) :
    (i0 <<< 18) ||| ((n1 % 64) <<< 12) ||| ((n2 % 64) <<< 6) =
      i0 * 262144 + (n1 % 64) * 4096 + (n2 % 64) * 64 :=
  unpack3 _ _ _ (Nat.mod_lt _ (by norm_num)) (Nat.mod_lt _ (by norm_num))

theorem unpack4_mod (i0 n1 n2 n3 : Nat) :
    (i0 <<< 18) ||| ((n1 % 64) <<< 12) ||| ((n2 % 64) <<< 6) ||| (n3 % 64) =
      i0 * 262144 + (n1 % 64) * 4096 + (n2 % 64) * 64 + n3 % 64 :=
  unpack4 _ _ _ _ (Nat.mod_lt _ (by norm_num)) (Nat.mod_lt _ (by norm_num))
    (Nat.mod_lt _ (by norm_num))

theorem and_15 (n : Nat) : n &&& 0xF = n % 16 :=
  Nat.and_pow_two_sub_one_eq_mod n 4

theorem and_3 (n : Nat) : n &&& 0x3 = n % 4 :=
  Nat.and_pow_two_sub_one_eq_mod n 2

/-- Strict decoding inverts the unpadded URL-safe encoding. -/
theorem decodeUnpadded_encodeToString (u : Bytes) :
    (URLEncoding.WithPadding NoPadding).decodeUnpadded
      ((URLEncoding.WithPadding NoPadding).EncodeToString u) = some u := by
  have hidx := index_sym
  simp only [Encoding.WithPadding, NoPadding] at hidx
  induction u using Encoding.EncodeToString.induct (URLEncoding.WithPadding NoPadding) with
  | case1 => rfl
  | case2 a =>
    have ha := a.isLt
    simp only [Encoding.EncodeToString, Encoding.pad, Encoding.WithPadding, NoPadding,
      List.append_nil, and_63, Encoding.decodeUnpadded, hidx, unpack2_mod, and_15]
    simp only [Nat.shiftLeft_eq, Nat.shiftRight_eq_div_pow]
    rw [if_pos (by omega)]
    congr 2
    exact byte_ofNat _ _ (by omega)
  | case3 a b =>
    have ha := a.isLt
    have hb := b.isLt
    simp only [Encoding.EncodeToString, Encoding.pad, Encoding.WithPadding, NoPadding,
      List.append_nil, and_63, Encoding.decodeUnpadded, hidx, unpack3_mod, and_3, pack2_val,
      Nat.shiftRight_eq_div_pow]
    rw [if_pos (by omega)]
    congr 2
    · exact byte_ofNat _ _ (by omega)
    · congr 1
      exact byte_ofNat _ _ (by omega)
  | case4 a b c rest ih =>
    have ha := a.isLt
    have hb := b.isLt
    have hc := c.isLt
    simp only [Encoding.WithPadding, NoPadding] at ih
    simp only [Encoding.EncodeToString, Encoding.WithPadding, NoPadding,
      and_63, Encoding.decodeUnpadded, hidx, unpack4_mod, pack3_val,
      Nat.shiftRight_eq_div_pow, ih, Option.map_some']
    congr 2
    · exact byte_ofNat _ _ (by omega)
    · congr 1
      · exact byte_ofNat _ _ (by omega)
      · congr 1
        exact byte_ofNat _ _ (by omega)

theorem cutPrefix_append (pre rest : Bytes) : cutPrefix (pre ++ rest) pre = some rest := by
  have h : pre.isPrefixOf (pre ++ rest) = true :=
    List.isPrefixOf_iff_prefix.mpr (List.prefix_append pre rest)
  simp [cutPrefix, h]

/-- Decoding a token gives back the URL it was built from. -/
theorem decodeToken_encodeToken (u : Bytes) : decodeToken (encodeToken u) = some u := by
  have h : TOKEN_PREFIX = ascii "k8s-aws-v1." := rfl
  simp only [decodeToken, encodeToken, h, cutPrefix_append, Option.some_bind,
    decodeUnpadded_encodeToString]

theorem getToken_ok (presignSts : PresignClient) (clusterName : Bytes)
    (req : PresignedHTTPRequest) (h : presignSts (AddEKSId clusterName) = .ok req) :
    getToken presignSts clusterName = .ok (encodeToken req.URL) := by
  simp [getToken, h]

/-! ## Lemmas: the envelope of a token -/

theorem htmlSafeSet_lt (b : Byte) (h : htmlSafeSet b = true) : b.val < 0x80 := by
  simp only [htmlSafeSet, Bool.and_eq_true, decide_eq_true_eq] at h
  exact h.1.2

/-- The loop of `appendString` copies a string of safe bytes unchanged. -/
theorem appendStringLoop_safe (fuel : Nat) (s : Bytes) (hlen : s.length ≤ fuel)
    (hs : ∀ b ∈ s, htmlSafeSet b = true) : appendStringLoop fuel s = s := by
  induction s generalizing fuel with
  | nil => cases fuel <;> rfl
  | cons b rest ih =>
    cases fuel with
    | zero => simp at hlen
    | succ fuel =>
      have hb := hs b (List.mem_cons_self _ _)
      have hrest := ih fuel (by simpa using hlen) (fun x hx => hs x (List.mem_cons_of_mem _ hx))
      simp [appendStringLoop, htmlSafeSet_lt b hb, hb, hrest]

theorem appendString_safe (s : Bytes) (hs : ∀ b ∈ s, htmlSafeSet b = true) :
    appendString s = [34] ++ s ++ [34] := by
  simp [appendString, appendStringLoop_safe s.length s (le_refl _) hs]

/-- Every byte of a token is a byte of the prefix or a symbol of the alphabet. -/
theorem encodeToken_mem (u : Bytes) :
    ∀ b ∈ encodeToken u, b ∈ ascii "k8s-aws-v1." ∨ b ∈ encodeURL := by
  intro b hb
  rcases List.mem_append.mp hb with h | h
  · exact Or.inl h
  · exact Or.inr (encodeToString_mem u b h)

set_option maxRecDepth 100000 in
theorem safe_of_mem (b : Byte) (h : b ∈ ascii "k8s-aws-v1." ∨ b ∈ encodeURL) :
    htmlSafeSet b = true := by
  revert b
  decide

theorem getToken_eq_ok (presignSts : PresignClient) (clusterName token : Bytes)
    (h : getToken presignSts clusterName = .ok token) :
    ∃ req, presignSts (AddEKSId clusterName) = .ok req ∧ token = encodeToken req.URL := by
  unfold getToken at h
  split at h
  · cases h
  · next req hreq => exact ⟨req, hreq, (Except.ok.inj h).symm⟩

/-! ## Lemmas: reading a string literal -/

theorem parseStringBody_cons (c : Byte) (rest : Bytes) :
    parseStringBody (c :: rest) =
      if c.val = 34 then some ([], rest)
      else if c.val = 92 then
        match rest with
        | [] => none
        | e :: rest1 =>
          if e.val = 117 then
            match rest1 with
            | h1 :: h2 :: h3 :: h4 :: rest2 =>
              if ishex h1 && ishex h2 && ishex h3 && ishex h4 then
                let cu := unhex h1 * 4096 + unhex h2 * 256 + unhex h3 * 16 + unhex h4
                if 0xD800 ≤ cu && cu ≤ 0xDFFF then none
                else (parseStringBody rest2).map (fun p => (encodeRune cu ++ p.1, p.2))
              else none
            | _ => none
          else
            match simpleEscape e with
            | some b => (parseStringBody rest1).map (fun p => (b :: p.1, p.2))
            | none => none
      else if c.val < 32 then none
      else (parseStringBody rest).map (fun p => (c :: p.1, p.2)) := by
  rw [parseStringBody.eq_def]
  rfl

theorem parseStringBody_quote (rest : Bytes) : parseStringBody (34 :: rest) = some ([], rest) := by
  rw [parseStringBody_cons]; rfl

theorem parseStringBody_plain (c : Byte) (rest : Bytes) (h1 : c.val ≠ 34) (h2 : c.val ≠ 92)
    (h3 : 32 ≤ c.val) :
    parseStringBody (c :: rest) = (parseStringBody rest).map (fun p => (c :: p.1, p.2)) := by
  rw [parseStringBody_cons, if_neg h1, if_neg h2, if_neg (by omega)]

theorem parseStringBody_high (pre rest : Bytes) (h : ∀ c ∈ pre, 0x80 ≤ c.val) :
    parseStringBody (pre ++ rest) = (parseStringBody rest).map (fun p => (pre ++ p.1, p.2)) := by
  induction pre with
  | nil => simp
  | cons c pre ih =>
    have hc := h c (List.mem_cons_self _ _)
    rw [List.cons_append, parseStringBody_plain c _ (by omega) (by omega) (by omega),
      ih (fun x hx => h x (List.mem_cons_of_mem _ hx))]
    cases parseStringBody rest <;> simp

theorem parseStringBody_safe (c : Byte) (rest : Bytes) (h : htmlSafeSet c = true) :
    parseStringBody (c :: rest) = (parseStringBody rest).map (fun p => (c :: p.1, p.2)) := by
  simp only [htmlSafeSet, Bool.and_eq_true, decide_eq_true_eq, Bool.not_eq_true',
    Bool.or_eq_false_iff, decide_eq_false_iff_not] at h
  exact parseStringBody_plain c rest (by omega) (by omega) (by omega)

theorem parseStringBody_simple_aux (c e b : Byte) (rest : Bytes) (hc : c.val = 92)
    (he : e.val ≠ 117) (h : simpleEscape e = some b) :
    parseStringBody (c :: e :: rest) = (parseStringBody rest).map (fun p => (b :: p.1, p.2)) := by
  rw [parseStringBody_cons, if_neg (by omega), if_pos hc]
  simp only [he, h, if_false]

theorem parseStringBody_simple (e b : Byte) (rest : Bytes) (he : e.val ≠ 117)
    (h : simpleEscape e = some b) :
    parseStringBody (92 :: e :: rest) = (parseStringBody rest).map (fun p => (b :: p.1, p.2)) :=
  parseStringBody_simple_aux 92 e b rest rfl he h

theorem parseStringBody_u_aux (c e h1 h2 h3 h4 : Byte) (rest : Bytes) (hc : c.val = 92)
    (he : e.val = 117)
    (hh : (ishex h1 && ishex h2 && ishex h3 && ishex h4) = true)
    (hs : ¬ (0xD800 ≤ unhex h1 * 4096 + unhex h2 * 256 + unhex h3 * 16 + unhex h4 ∧
      unhex h1 * 4096 + unhex h2 * 256 + unhex h3 * 16 + unhex h4 ≤ 0xDFFF)) :
    parseStringBody (c :: e :: h1 :: h2 :: h3 :: h4 :: rest) =
      (parseStringBody rest).map (fun p =>
        (encodeRune (unhex h1 * 4096 + unhex h2 * 256 + unhex h3 * 16 + unhex h4) ++ p.1, p.2)) := by
  rw [parseStringBody_cons, if_neg (by omega), if_pos hc]
  have hs2 : ¬ ((decide (0xD800 ≤ unhex h1 * 4096 + unhex h2 * 256 + unhex h3 * 16 + unhex h4) &&
      decide (unhex h1 * 4096 + unhex h2 * 256 + unhex h3 * 16 + unhex h4 ≤ 0xDFFF)) = true) := by
    simp only [Bool.and_eq_true, decide_eq_true_eq]
    exact hs
  simp only [he, hh, if_true]
  rw [if_neg hs2]

theorem parseStringBody_u (h1 h2 h3 h4 : Byte) (rest : Bytes)
    (hh : (ishex h1 && ishex h2 && ishex h3 && ishex h4) = true)
    (hs : ¬ (0xD800 ≤ unhex h1 * 4096 + unhex h2 * 256 + unhex h3 * 16 + unhex h4 ∧
      unhex h1 * 4096 + unhex h2 * 256 + unhex h3 * 16 + unhex h4 ≤ 0xDFFF)) :
    parseStringBody (92 :: 117 :: h1 :: h2 :: h3 :: h4 :: rest) =
      (parseStringBody rest).map (fun p =>
        (encodeRune (unhex h1 * 4096 + unhex h2 * 256 + unhex h3 * 16 + unhex h4) ++ p.1, p.2)) :=
  parseStringBody_u_aux 92 117 h1 h2 h3 h4 rest rfl rfl hh hs

theorem hex_spec (n : Nat) (h : n < 16) : ishex (hex n) = true ∧ unhex (hex n) = n := by
  have key : ∀ i : Fin 16, ishex (hex i.val) = true ∧ unhex (hex i.val) = i.val := by decide
  exact key ⟨n, h⟩

theorem parseStringBody_u00 (b : Byte) (rest : Bytes) (hb : b.val < 0x80) :
    parseStringBody ([92, 117, 48, 48, hex (b.val >>> 4), hex (b.val &&& 0xF)] ++ rest) =
      (parseStringBody rest).map (fun p => (b :: p.1, p.2)) := by
  have h1 := hex_spec (b.val >>> 4) (by rw [Nat.shiftRight_eq_div_pow]; omega)
  have h2 := hex_spec (b.val &&& 0xF) (by rw [and_15]; omega)
  have e0 : ishex (48 : Byte) = true := by decide
  have u0 : unhex (48 : Byte) = 0 := by decide
  have hcu : unhex 48 * 4096 + unhex 48 * 256 + unhex (hex (b.val >>> 4)) * 16 +
      unhex (hex (b.val &&& 0xF)) = b.val := by
    rw [u0, h1.2, h2.2, and_15, Nat.shiftRight_eq_div_pow]; omega
  have hb2 : (Fin.ofNat b.val : Byte) = b := byte_ofNat b _ (by omega)
  have henc : encodeRune b.val = [b] := by
    simp only [encodeRune, if_pos hb, hb2]
  simp only [List.cons_append, List.nil_append]
  rw [parseStringBody_u _ _ _ _ _ (by simp [e0, h1.1, h2.1]) (by rw [hcu]; omega), hcu, henc]
  rfl

theorem parseStringBody_escapeByte (b : Byte) (rest : Bytes) (hb : b.val < 0x80) :
    parseStringBody (escapeByte b ++ rest) =
      (parseStringBody rest).map (fun p => (b :: p.1, p.2)) := by
  unfold escapeByte
  split_ifs with h1 h2 h3 h4 h5 h6
  · have : b = 92 ∨ b = 34 := by
      simp only [Bool.or_eq_true, decide_eq_true_eq] at h1
      rcases h1 with h | h
      · exact Or.inl (Fin.ext h)
      · exact Or.inr (Fin.ext h)
    rcases this with rfl | rfl <;>
      exact parseStringBody_simple _ _ _ (by decide) (by decide)
  · have : b = 8 := Fin.ext h2
    subst this; exact parseStringBody_simple _ _ _ (by decide) (by decide)
  · have : b = 12 := Fin.ext h3
    subst this; exact parseStringBody_simple _ _ _ (by decide) (by decide)
  · have : b = 10 := Fin.ext h4
    subst this; exact parseStringBody_simple _ _ _ (by decide) (by decide)
  · have : b = 13 := Fin.ext h5
    subst this; exact parseStringBody_simple _ _ _ (by decide) (by decide)
  · have : b = 9 := Fin.ext h6
    subst this; exact parseStringBody_simple _ _ _ (by decide) (by decide)
  · exact parseStringBody_u00 b rest hb

theorem parseStringBody_ufffd (rest : Bytes) :
    parseStringBody ([92, 117, 102, 102, 102, 100] ++ rest) =
      (parseStringBody rest).map (fun p => ([0xEF, 0xBF, 0xBD] ++ p.1, p.2)) := by
  simp only [List.cons_append, List.nil_append]
  rw [parseStringBody_u _ _ _ _ _ (by decide) (by decide)]
  rfl

theorem parseStringBody_u202 (n : Nat) (rest : Bytes) (hn : n = 8 ∨ n = 9) :
    parseStringBody ([92, 117, 50, 48, 50, hex n] ++ rest) =
      (parseStringBody rest).map (fun p => ([0xE2, 0x80, Fin.ofNat (0xA0 + n)] ++ p.1, p.2)) := by
  simp only [List.cons_append, List.nil_append]
  rcases hn with rfl | rfl
  · rw [parseStringBody_u _ _ _ _ _ (by decide) (by decide)]
    rfl
  · rw [parseStringBody_u _ _ _ _ _ (by decide) (by decide)]
    rfl

/-! ## Lemmas: decoding a rune -/

theorem and_31 (n : Nat) : n &&& 0x1F = n % 32 := Nat.and_pow_two_sub_one_eq_mod n 5

theorem and_7 (n : Nat) : n &&& 0x07 = n % 8 := Nat.and_pow_two_sub_one_eq_mod n 3

theorem rune2 (s0 s1 : Nat) :
    ((s0 &&& 0x1F) <<< 6) ||| (s1 &&& 0x3F) = s0 % 32 * 64 + s1 % 64 := by
  rw [and_31, and_63, Nat.shiftLeft_eq]
  exact or_eq_add_of_dvd 6 _ _ (Dvd.intro_left _ rfl) (by omega)

theorem rune3 (s0 s1 s2 : Nat) :
    ((s0 &&& 0x0F) <<< 12) ||| ((s1 &&& 0x3F) <<< 6) ||| (s2 &&& 0x3F) =
      s0 % 16 * 4096 + s1 % 64 * 64 + s2 % 64 := by
  rw [and_15, and_63, and_63, Nat.shiftLeft_eq, Nat.shiftLeft_eq,
    or_eq_add_of_dvd 12 _ _ (Dvd.intro_left _ rfl) (by omega)]
  exact or_eq_add_of_dvd 6 _ _ (by norm_num; omega) (by omega)

theorem rune4 (s0 s1 s2 s3 : Nat) :
    ((s0 &&& 0x07) <<< 18) ||| ((s1 &&& 0x3F) <<< 12) ||| ((s2 &&& 0x3F) <<< 6) |||
        (s3 &&& 0x3F) =
      s0 % 8 * 262144 + s1 % 64 * 4096 + s2 % 64 * 64 + s3 % 64 := by
  rw [and_7, and_63, and_63, and_63, Nat.shiftLeft_eq, Nat.shiftLeft_eq, Nat.shiftLeft_eq]
  have e1 : s0 % 8 * 2 ^ 18 ||| s1 % 64 * 2 ^ 12 = s0 % 8 * 262144 + s1 % 64 * 4096 :=
    or_eq_add_of_dvd 18 _ _ (Dvd.intro_left _ rfl) (by omega)
  have e2 : (s0 % 8 * 262144 + s1 % 64 * 4096) ||| s2 % 64 * 2 ^ 6 =
      s0 % 8 * 262144 + s1 % 64 * 4096 + s2 % 64 * 64 :=
    or_eq_add_of_dvd 12 _ _ (by norm_num; omega) (by omega)
  rw [e1, e2]
  exact or_eq_add_of_dvd 6 _ _ (by norm_num; omega) (by omega)

set_option maxRecDepth 100000 in
theorem first_cases (s0 : Byte) (h : 0x80 ≤ s0.val) :
    first s0 = 0xF1 ∨
      (first s0 = 0x02 ∧ 0xC2 ≤ s0.val ∧ s0.val < 0xE0) ∨
      (first s0 = 0x13 ∧ s0.val = 0xE0) ∨
      (first s0 = 0x03 ∧ 0xE1 ≤ s0.val ∧ s0.val ≤ 0xEF) ∨
      (first s0 = 0x23 ∧ s0.val = 0xED) ∨
      (first s0 = 0x34 ∧ s0.val = 0xF0) ∨
      (first s0 = 0x04 ∧ 0xF1 ≤ s0.val ∧ s0.val ≤ 0xF3) ∨
      (first s0 = 0x44 ∧ s0.val = 0xF4) := by
  revert s0
  decide

/-- What `DecodeRuneInString` returns on a string that starts with a byte
outside ASCII. -/
theorem decode_cases (s0 : Byte) (t : Bytes) (h : 0x80 ≤ s0.val) :
    DecodeRuneInString (s0 :: t) = (RuneError, 1) ∨
      (∃ s1 t1, t = s1 :: t1 ∧ 0x80 ≤ s1.val ∧
        DecodeRuneInString (s0 :: t) = (s0.val % 32 * 64 + s1.val % 64, 2)) ∨
      (∃ s1 s2 t2, t = s1 :: s2 :: t2 ∧ 0xE0 ≤ s0.val ∧ s0.val ≤ 0xEF ∧
        0x80 ≤ s1.val ∧ s1.val ≤ 0xBF ∧ 0x80 ≤ s2.val ∧ s2.val ≤ 0xBF ∧
        DecodeRuneInString (s0 :: t) =
          (s0.val % 16 * 4096 + s1.val % 64 * 64 + s2.val % 64, 3)) ∨
      (∃ s1 s2 s3 t3, t = s1 :: s2 :: s3 :: t3 ∧ 0xF0 ≤ s0.val ∧ s0.val ≤ 0xF4 ∧
        (s0.val = 0xF0 → 0x90 ≤ s1.val) ∧
        0x80 ≤ s1.val ∧ s1.val ≤ 0xBF ∧ 0x80 ≤ s2.val ∧ 0x80 ≤ s3.val ∧
        DecodeRuneInString (s0 :: t) =
          (s0.val % 8 * 262144 + s1.val % 64 * 4096 + s2.val % 64 * 64 + s3.val % 64, 4)) := by
  rcases first_cases s0 h with hx | ⟨hx, h1, h2⟩ | ⟨hx, h1⟩ | ⟨hx, h1, h2⟩ | ⟨hx, h1⟩ | ⟨hx, h1⟩ |
    ⟨hx, h1, h2⟩ | ⟨hx, h1⟩
  · left
    simp [DecodeRuneInString, hx]
  · have c1 : (2 &&& 7) = 2 := by decide
    have c2 : (2 >>> 4) = 0 := by decide
    simp only [DecodeRuneInString, hx, c1, c2, acceptRanges, rune2, rune3, rune4]
    rcases t with _ | ⟨s1, t1⟩
    · left; simp
    · by_cases hs1 : s1.val < 0x80 ∨ 0xBF < s1.val
      · left; simp [hs1]
      · right; left
        refine ⟨s1, t1, rfl, by omega, ?_⟩
        simp [hs1]
  · have c1 : (0x13 &&& 7) = 3 := by decide
    have c2 : (0x13 >>> 4) = 1 := by decide
    simp only [DecodeRuneInString, hx, c1, c2, acceptRanges, rune2, rune3, rune4]
    rcases t with _ | ⟨s1, _ | ⟨s2, t2⟩⟩
    · left; simp
    · left; simp
    · by_cases hs1 : s1.val < 0xA0 ∨ 0xBF < s1.val
      · left; simp [hs1]
      · by_cases hs2 : s2.val < 0x80 ∨ 0xBF < s2.val
        · left; simp [hs2]
        · right; right; left
          refine ⟨s1, s2, t2, rfl, by omega, by omega, by omega, by omega, by omega, by omega, ?_⟩
          simp [hs1, hs2]
  · have c1 : (0x03 &&& 7) = 3 := by decide
    have c2 : (0x03 >>> 4) = 0 := by decide
    simp only [DecodeRuneInString, hx, c1, c2, acceptRanges, rune2, rune3, rune4]
    rcases t with _ | ⟨s1, _ | ⟨s2, t2⟩⟩
    · left; simp
    · left; simp
    · by_cases hs1 : s1.val < 0x80 ∨ 0xBF < s1.val
      · left; simp [hs1]
      · by_cases hs2 : s2.val < 0x80 ∨ 0xBF < s2.val
        · left; simp [hs2]
        · right; right; left
          refine ⟨s1, s2, t2, rfl, by omega, by omega, by omega, by omega, by omega, by omega, ?_⟩
          simp [hs1, hs2]
  · have c1 : (0x23 &&& 7) = 3 := by decide
    have c2 : (0x23 >>> 4) = 2 := by decide
    simp only [DecodeRuneInString, hx, c1, c2, acceptRanges, rune2, rune3, rune4]
    rcases t with _ | ⟨s1, _ | ⟨s2, t2⟩⟩
    · left; simp
    · left; simp
    · by_cases hs1 : s1.val < 0x80 ∨ 0x9F < s1.val
      · left; simp [hs1]
      · by_cases hs2 : s2.val < 0x80 ∨ 0xBF < s2.val
        · left; simp [hs2]
        · right; right; left
          refine ⟨s1, s2, t2, rfl, by omega, by omega, by omega, by omega, by omega, by omega, ?_⟩
          simp [hs1, hs2]
  · have c1 : (0x34 &&& 7) = 4 := by decide
    have c2 : (0x34 >>> 4) = 3 := by decide
    simp only [DecodeRuneInString, hx, c1, c2, acceptRanges, rune2, rune3, rune4]
    rcases t with _ | ⟨s1, _ | ⟨s2, _ | ⟨s3, t3⟩⟩⟩
    · left; simp
    · left; simp
    · left; simp
    · by_cases hs1 : s1.val < 0x90 ∨ 0xBF < s1.val
      · left; simp [hs1]
      · by_cases hs2 : s2.val < 0x80 ∨ 0xBF < s2.val
        · left; simp [hs2]
        · by_cases hs3 : s3.val < 0x80 ∨ 0xBF < s3.val
          · left; simp [hs3]
          · right; right; right
            refine ⟨s1, s2, s3, t3, rfl, by omega, by omega, by omega, by omega, by omega,
              by omega, by omega, ?_⟩
            simp [hs1, hs2, hs3]
  · have c1 : (0x04 &&& 7) = 4 := by decide
    have c2 : (0x04 >>> 4) = 0 := by decide
    simp only [DecodeRuneInString, hx, c1, c2, acceptRanges, rune2, rune3, rune4]
    rcases t with _ | ⟨s1, _ | ⟨s2, _ | ⟨s3, t3⟩⟩⟩
    · left; simp
    · left; simp
    · left; simp
    · by_cases hs1 : s1.val < 0x80 ∨ 0xBF < s1.val
      · left; simp [hs1]
      · by_cases hs2 : s2.val < 0x80 ∨ 0xBF < s2.val
        · left; simp [hs2]
        · by_cases hs3 : s3.val < 0x80 ∨ 0xBF < s3.val
          · left; simp [hs3]
          · right; right; right
            refine ⟨s1, s2, s3, t3, rfl, by omega, by omega, by omega, by omega, by omega,
              by omega, by omega, ?_⟩
            simp [hs1, hs2, hs3]
  · have c1 : (0x44 &&& 7) = 4 := by decide
    have c2 : (0x44 >>> 4) = 4 := by decide
    simp only [DecodeRuneInString, hx, c1, c2, acceptRanges, rune2, rune3, rune4]
    rcases t with _ | ⟨s1, _ | ⟨s2, _ | ⟨s3, t3⟩⟩⟩
    · left; simp
    · left; simp
    · left; simp
    · by_cases hs1 : s1.val < 0x80 ∨ 0x8F < s1.val
      · left; simp [hs1]
      · by_cases hs2 : s2.val < 0x80 ∨ 0xBF < s2.val
        · left; simp [hs2]
        · by_cases hs3 : s3.val < 0x80 ∨ 0xBF < s3.val
          · left; simp [hs3]
          · right; right; right
            refine ⟨s1, s2, s3, t3, rfl, by omega, by omega, by omega, by omega, by omega,
              by omega, by omega, ?_⟩
            simp [hs1, hs2, hs3]

/-- The facts about the rune at the head of `b :: rest`, for `b` outside ASCII,
that the encoder and the reader of strings rely on. -/
theorem decode_facts (b : Byte) (rest : Bytes) (hb : 0x80 ≤ b.val) :
    DecodeRuneInString ((b :: rest).take 4) = (RuneError, 1) ∨
      ((DecodeRuneInString ((b :: rest).take 4)).2 ≠ 1 ∧
        1 ≤ (DecodeRuneInString ((b :: rest).take 4)).2 ∧
        (∀ x ∈ (b :: rest).take (DecodeRuneInString ((b :: rest).take 4)).2, 0x80 ≤ x.val) ∧
        ((DecodeRuneInString ((b :: rest).take 4)).1 = 0x2028 ∨
            (DecodeRuneInString ((b :: rest).take 4)).1 = 0x2029 →
          (b :: rest).take (DecodeRuneInString ((b :: rest).take 4)).2 =
            [0xE2, 0x80,
              Fin.ofNat (0xA0 + ((DecodeRuneInString ((b :: rest).take 4)).1 &&& 0xF))])) := by
  have htake : ∀ k, k ≤ 4 → (b :: rest).take k = ((b :: rest).take 4).take k := by
    intro k hk
    rw [List.take_take, min_eq_left hk]
  have h4 : (b :: rest).take 4 = b :: rest.take 3 := rfl
  rcases decode_cases b (rest.take 3) hb with h | ⟨s1, t1, ht, h1, h⟩ |
    ⟨s1, s2, t2, ht, hb1, hb2, h1, h1', h2, h2', h⟩ |
    ⟨s1, s2, s3, t3, ht, hb1, hb2, hf, h1, h1', h2, h3, h⟩
  · left; rw [h4]; exact h
  · right
    have hd : DecodeRuneInString ((b :: rest).take 4) = (b.val % 32 * 64 + s1.val % 64, 2) := by
      rw [h4]; exact h
    have hk : (b :: rest).take 2 = [b, s1] := by
      rw [htake 2 (by norm_num), h4, ht]; rfl
    rw [hd]
    refine ⟨by norm_num, by norm_num, ?_, ?_⟩
    · intro x hx
      simp only [hk, List.mem_cons, List.mem_singleton, List.not_mem_nil, or_false] at hx
      rcases hx with rfl | rfl <;> assumption
    · intro hc
      exfalso
      simp only at hc
      omega
  · right
    have hd : DecodeRuneInString ((b :: rest).take 4) =
        (b.val % 16 * 4096 + s1.val % 64 * 64 + s2.val % 64, 3) := by
      rw [h4]; exact h
    have hk : (b :: rest).take 3 = [b, s1, s2] := by
      rw [htake 3 (by norm_num), h4, ht]; rfl
    rw [hd]
    refine ⟨by norm_num, by norm_num, ?_, ?_⟩
    · intro x hx
      simp only [hk, List.mem_cons, List.mem_singleton, List.not_mem_nil, or_false] at hx
      rcases hx with rfl | rfl | rfl <;> omega
    · intro hc
      simp only at hc
      simp only [hk, and_15]
      have e0 : b = 0xE2 := Fin.ext (by
        show b.val = 0xE2
        omega)
      have e1 : s1 = 0x80 := Fin.ext (by
        show s1.val = 0x80
        omega)
      have e2 : s2 = Fin.ofNat
          (0xA0 + (b.val % 16 * 4096 + s1.val % 64 * 64 + s2.val % 64) % 16) :=
        (byte_ofNat s2 _ (by omega)).symm
      rw [← e2, e0, e1]
  · right
    have hd : DecodeRuneInString ((b :: rest).take 4) =
        (b.val % 8 * 262144 + s1.val % 64 * 4096 + s2.val % 64 * 64 + s3.val % 64, 4) := by
      rw [h4]; exact h
    have ht3 : t3 = [] := by
      have hl := congrArg List.length ht
      simp only [List.length_take, List.length_cons] at hl
      exact List.length_eq_zero.mp (by omega)
    subst ht3
    have hk : (b :: rest).take 4 = [b, s1, s2, s3] := by
      rw [h4, ht]
    rw [hd]
    refine ⟨by norm_num, by norm_num, ?_, ?_⟩
    · intro x hx
      simp only [hk, List.mem_cons, List.mem_singleton, List.not_mem_nil, or_false] at hx
      rcases hx with rfl | rfl | rfl | rfl <;> omega
    · intro hc
      exfalso
      simp only at hc
      omega

/-! ## Lemmas: a string literal reads back as the coerced string -/

theorem length_drop_le (b : Byte) (rest : Bytes) (k fuel : Nat) (hk : 1 ≤ k)
    (h : (b :: rest).length ≤ fuel + 1) : ((b :: rest).drop k).length ≤ fuel := by
  simp only [List.length_drop, List.length_cons] at *
  omega

/-- The reader of string literals, run on the output of the loop of
`appendString` followed by a closing quote, returns the coerced string. -/
theorem parseStringBody_appendStringLoop (fuel : Nat) (s tail : Bytes) (h : s.length ≤ fuel) :
    parseStringBody (appendStringLoop fuel s ++ 34 :: tail) = some (coerceLoop fuel s, tail) := by
  induction fuel generalizing s with
  | zero =>
    have : s = [] := List.length_eq_zero.mp (by omega)
    subst this
    simp [appendStringLoop, coerceLoop, parseStringBody_quote]
  | succ fuel ih =>
    rcases s with _ | ⟨b, rest⟩
    · simp [appendStringLoop, coerceLoop, parseStringBody_quote]
    · have hrest : rest.length ≤ fuel := by simpa using h
      by_cases hb : b.val < 0x80
      · by_cases hsafe : htmlSafeSet b = true
        · simp only [appendStringLoop, coerceLoop, if_pos hb, if_pos hsafe, List.cons_append]
          rw [parseStringBody_safe b _ hsafe, ih rest hrest]
          rfl
        · simp only [appendStringLoop, coerceLoop, if_pos hb, if_neg hsafe, List.append_assoc]
          rw [parseStringBody_escapeByte b _ hb, ih rest hrest]
          rfl
      · have hb2 : 0x80 ≤ b.val := by omega
        rcases decode_facts b rest hb2 with hd | ⟨hne, hge, hhigh, h2028⟩
        · simp only [appendStringLoop, coerceLoop, if_neg hb, hd, and_self, if_true,
            List.append_assoc]
          rw [parseStringBody_ufffd, ih rest hrest]
          rfl
        · have hlen := length_drop_le b rest _ fuel hge h
          have hnot : ¬ ((DecodeRuneInString ((b :: rest).take 4)).1 = RuneError ∧
              (DecodeRuneInString ((b :: rest).take 4)).2 = 1) := fun hc => hne hc.2
          by_cases hls : (DecodeRuneInString ((b :: rest).take 4)).1 = 0x2028 ∨
              (DecodeRuneInString ((b :: rest).take 4)).1 = 0x2029
          · simp only [appendStringLoop, coerceLoop, if_neg hb, if_neg hnot, if_pos hls,
              if_neg hne, List.append_assoc]
            rw [parseStringBody_u202 _ _ (by
                rcases hls with h | h <;> rw [h]
                · left; decide
                · right; decide),
              ih _ hlen, h2028 hls]
            rfl
          · simp only [appendStringLoop, coerceLoop, if_neg hb, if_neg hnot, if_neg hls,
              if_neg hne, List.append_assoc]
            rw [parseStringBody_high _ _ hhigh, ih _ hlen]
            rfl

theorem parseStringBody_appendString (x tail : Bytes) :
    parseStringBody (appendStringLoop x.length x ++ 34 :: tail) = some (coerceUTF8 x, tail) :=
  parseStringBody_appendStringLoop x.length x tail (le_refl _)

/-- The coercion leaves a valid UTF-8 string as it is. -/
theorem coerceLoop_valid (fuel : Nat) (s : Bytes) (h : validLoop fuel s = true) :
    coerceLoop fuel s = s := by
  induction fuel generalizing s with
  | zero =>
    rcases s with _ | ⟨b, rest⟩
    · rfl
    · simp [validLoop] at h
  | succ fuel ih =>
    rcases s with _ | ⟨b, rest⟩
    · rfl
    · by_cases hb : b.val < 0x80
      · simp only [validLoop, if_pos hb] at h
        simp only [coerceLoop, if_pos hb, ih rest h]
      · by_cases h1 : (DecodeRuneInString ((b :: rest).take 4)).2 = 1
        · simp only [validLoop, if_neg hb, if_pos h1] at h
          cases h
        · simp only [validLoop, if_neg hb, if_neg h1] at h
          simp only [coerceLoop, if_neg hb, if_neg h1, ih _ h, List.take_append_drop]

theorem coerceUTF8_valid (s : Bytes) (h : ValidString s = true) : coerceUTF8 s = s :=
  coerceLoop_valid s.length s h

/-! ## Lemmas: reading the envelope -/

theorem skipSpace_keep (c : Byte) (x : Bytes)
    (h : (c.val = 32 || c.val = 9 || c.val = 10 || c.val = 13) = false) :
    skipSpace (c :: x) = c :: x := by
  rw [skipSpace]
  simp only [h, Bool.false_eq_true, if_false]

theorem parseValue_str (fuel : Nat) (rest : Bytes) :
    parseValue (fuel + 1) (34 :: rest) =
      (parseStringBody rest).map (fun p => (JSON.str p.1, p.2)) := by
  rw [parseValue]
  rfl

theorem parseValue_obj (fuel : Nat) (rest : Bytes) :
    parseValue (fuel + 1) (123 :: 34 :: rest) =
      (parseMembers fuel (34 :: rest)).map (fun p => (JSON.obj p.1, p.2)) := by
  rw [parseValue]
  rfl

theorem parseMembers_last (fuel : Nat) (x key y z : Bytes) (v : JSON)
    (h1 : parseStringBody x = some (key, 58 :: y))
    (h2 : parseValue fuel y = some (v, 125 :: z)) :
    parseMembers (fuel + 1) (34 :: x) = some ([(key, v)], z) := by
  rw [parseMembers, skipSpace_keep 34 x rfl]
  simp only [h1, skipSpace_keep 58 y rfl, h2, skipSpace_keep 125 z rfl]
  rfl

theorem parseMembers_more (fuel : Nat) (x key y z : Bytes) (v : JSON)
    (h1 : parseStringBody x = some (key, 58 :: y))
    (h2 : parseValue fuel y = some (v, 44 :: z)) :
    parseMembers (fuel + 1) (34 :: x) =
      (parseMembers fuel z).map (fun p => ((key, v) :: p.1, p.2)) := by
  rw [parseMembers, skipSpace_keep 34 x rfl]
  simp only [h1, skipSpace_keep 58 y rfl, h2, skipSpace_keep 44 z rfl]
  rfl

/-- The text of the envelope, with the string literals that hold the two
constants and the token. -/
theorem parseValue_envelope (n : Nat) (a k t tail : Bytes) :
    parseValue (n + 7)
      (123 :: 34 :: (ascii "apiVersion" ++ 34 :: 58 :: 34 ::
        (appendStringLoop a.length a ++ 34 :: 44 :: 34 :: (ascii "kind" ++ 34 :: 58 :: 34 ::
        (appendStringLoop k.length k ++ 34 :: 44 :: 34 :: (ascii "status" ++ 34 :: 58 :: 123 :: 34 ::
        (appendStringLoop (ascii "token").length (ascii "token") ++ 34 :: 58 :: 34 ::
        (appendStringLoop t.length t ++ 34 :: 125 :: 125 :: tail)))))))) =
      some (JSON.obj [(ascii "apiVersion", JSON.str (coerceUTF8 a)),
        (ascii "kind", JSON.str (coerceUTF8 k)),
        (ascii "status", JSON.obj [(ascii "token", JSON.str (coerceUTF8 t))])], tail) := by
  have key : ∀ (x rest : Bytes), appendStringLoop x.length x = x → coerceUTF8 x = x →
      parseStringBody (x ++ 34 :: rest) = some (x, rest) := by
    intro x rest h1 h2
    have := parseStringBody_appendString x rest
    rwa [h1, h2] at this
  have str : ∀ (m : Nat) (x rest : Bytes),
      parseValue (m + 1) (34 :: (appendStringLoop x.length x ++ 34 :: rest)) =
        some (JSON.str (coerceUTF8 x), rest) := by
    intro m x rest
    rw [parseValue_str, parseStringBody_appendString]
    rfl
  have inner : parseMembers (n + 2) (34 ::
      (appendStringLoop (ascii "token").length (ascii "token") ++ 34 :: 58 :: 34 ::
        (appendStringLoop t.length t ++ 34 :: 125 :: 125 :: tail))) =
      some ([(ascii "token", JSON.str (coerceUTF8 t))], 125 :: tail) := by
    refine parseMembers_last _ _ _ _ _ _ ?_ (str _ _ _)
    rw [parseStringBody_appendString]
    rfl
  have status : parseMembers (n + 4) (34 :: (ascii "status" ++ 34 :: 58 :: 123 :: 34 ::
        (appendStringLoop (ascii "token").length (ascii "token") ++ 34 :: 58 :: 34 ::
        (appendStringLoop t.length t ++ 34 :: 125 :: 125 :: tail)))) =
      some ([(ascii "status", JSON.obj [(ascii "token", JSON.str (coerceUTF8 t))])], tail) := by
    refine parseMembers_last _ _ _ _ _ _ (key _ _ (by decide) (by decide)) ?_
    rw [parseValue_obj, inner]
    rfl
  rw [parseValue_obj,
    parseMembers_more _ _ _ _ _ _ (key _ _ (by decide) (by decide)) (str _ _ _),
    parseMembers_more _ _ _ _ _ _ (key _ _ (by decide) (by decide)) (str _ _ _),
    status]
  rfl

theorem getExecAuth_layout (t : Bytes) :
    getExecAuth t = .ok
      (123 :: 34 :: (ascii "apiVersion" ++ 34 :: 58 :: 34 ::
        (appendStringLoop API_VERSION.length API_VERSION ++ 34 :: 44 :: 34 ::
        (ascii "kind" ++ 34 :: 58 :: 34 ::
        (appendStringLoop KIND.length KIND ++ 34 :: 44 :: 34 ::
        (ascii "status" ++ 34 :: 58 :: 123 :: 34 ::
        (appendStringLoop (ascii "token").length (ascii "token") ++ 34 :: 58 :: 34 ::
        (appendStringLoop t.length t ++ 34 :: 125 :: 125 :: [])))))))) := by
  simp only [getExecAuth, getExecAuthWith, Marshal, mapEncoder, sortEntries, insertEntry,
    encodeEntries, appendString]
  simp only [List.append_assoc, List.cons_append, List.nil_append, List.append_nil, if_true]
  rfl

/-! ## Lemmas: maps -/

theorem get_set_self (m : StringsMap) (k : Bytes) (vs : List Bytes) :
    (m.set k vs).get k = vs := by
  induction m with
  | nil => simp [StringsMap.set, StringsMap.get]
  | cons e m ih =>
    obtain ⟨k1, ws⟩ := e
    by_cases h : k1 = k
    · simp [StringsMap.set, StringsMap.get, h]
    · simp [StringsMap.set, StringsMap.get, h, ih]

theorem mem_keys_set (m : StringsMap) (k : Bytes) (vs : List Bytes) :
    k ∈ (m.set k vs).keys := by
  induction m with
  | nil => simp [StringsMap.set, StringsMap.keys]
  | cons e m ih =>
    obtain ⟨k1, ws⟩ := e
    by_cases h : k1 = k
    · simp [StringsMap.set, StringsMap.keys, h]
    · simp only [StringsMap.set, if_neg h, StringsMap.keys, List.map_cons, List.mem_cons]
      exact Or.inr ih

theorem mem_insertString (k x : Bytes) (l : List Bytes) :
    x ∈ insertString k l ↔ x = k ∨ x ∈ l := by
  induction l with
  | nil => simp [insertString]
  | cons y l ih =>
    by_cases h : strLess y k = true
    · simp only [insertString, if_pos h, List.mem_cons, ih]
      tauto
    · simp only [insertString, if_neg h, List.mem_cons]

theorem mem_sortStrings (x : Bytes) (l : List Bytes) : x ∈ sortStrings l ↔ x ∈ l := by
  induction l with
  | nil => simp [sortStrings]
  | cons y l ih => simp only [sortStrings, mem_insertString, ih, List.mem_cons]

/-! ## Lemmas: the encoded query -/

theorem upperhex_ne_amp (n : Nat) (h : n < 16) : upperhex n ≠ 38 := by
  have key : ∀ i : Fin 16, upperhex i.val ≠ 38 := by decide
  exact key ⟨n, h⟩

theorem QueryEscape_no_amp (s : Bytes) : (38 : Byte) ∉ QueryEscape s := by
  induction s with
  | nil => simp [QueryEscape]
  | cons c s ih =>
    have hc := c.isLt
    unfold QueryEscape
    split_ifs with h1 h2
    · simp only [List.mem_cons, not_or]
      exact ⟨by decide, ih⟩
    · simp only [List.mem_cons, not_or]
      refine ⟨by decide, ?_, ?_, ih⟩
      · exact fun h => upperhex_ne_amp _ (by rw [Nat.shiftRight_eq_div_pow]; omega) h.symm
      · exact fun h => upperhex_ne_amp _ (by rw [and_15]; omega) h.symm
    · simp only [List.mem_cons, not_or]
      refine ⟨?_, ih⟩
      intro h
      rw [← h] at h2
      exact h2 (by decide)

theorem encodeValues_eq (ke buf : Bytes) (vs : List Bytes) :
    encodeValues ke buf vs = joinOnto buf (vs.map (fun x => ke ++ [61] ++ QueryEscape x)) := by
  induction vs generalizing buf with
  | nil => rfl
  | cons x vs ih =>
    simp only [encodeValues, ih, joinOnto, List.map_cons, List.foldl_cons, List.append_assoc]

theorem encodeKeys_eq (v : StringsMap) (buf : Bytes) (keys : List Bytes) :
    encodeKeys v buf keys = joinOnto buf (querySegments v keys) := by
  induction keys generalizing buf with
  | nil => rfl
  | cons k keys ih =>
    simp only [encodeKeys, ih, encodeValues_eq, querySegments, joinOnto, List.flatMap_cons,
      List.foldl_append]

theorem joinOnto_nonempty (buf : Bytes) (segs : List Bytes) (h : buf ≠ []) :
    joinOnto buf segs = buf ++ segs.flatMap (fun s => 38 :: s) := by
  induction segs generalizing buf with
  | nil => simp [joinOnto]
  | cons s segs ih =>
    have hlen : buf.length > 0 := List.length_pos.mpr h
    have hne : buf ++ [38] ++ s ≠ [] := by simp
    have := ih (buf ++ [38] ++ s) hne
    simp only [joinOnto, List.foldl_cons, if_pos hlen] at this ⊢
    rw [this]
    simp

theorem joinOnto_nil (s : Bytes) (segs : List Bytes) (h : s ≠ []) :
    joinOnto [] (s :: segs) = s ++ segs.flatMap (fun x => 38 :: x) := by
  have := joinOnto_nonempty s segs h
  simpa [joinOnto] using this

theorem splitByte_clean (s : Bytes) (h : (38 : Byte) ∉ s) : splitByte 38 s = [s] := by
  induction s with
  | nil => rfl
  | cons c s ih =>
    have hc : c ≠ 38 := fun e => h (e ▸ List.mem_cons_self _ _)
    have hs : (38 : Byte) ∉ s := fun e => h (List.mem_cons_of_mem _ e)
    simp only [splitByte, if_neg hc, ih hs]

theorem splitByte_append (s r : Bytes) (h : (38 : Byte) ∉ s) :
    splitByte 38 (s ++ 38 :: r) = s :: splitByte 38 r := by
  induction s with
  | nil => simp [splitByte]
  | cons c s ih =>
    have hc : c ≠ 38 := fun e => h (e ▸ List.mem_cons_self _ _)
    have hs : (38 : Byte) ∉ s := fun e => h (List.mem_cons_of_mem _ e)
    rw [List.cons_append, splitByte, if_neg hc, ih hs]

theorem splitByte_join (s : Bytes) (segs : List Bytes) (hs : (38 : Byte) ∉ s)
    (hsegs : ∀ x ∈ segs, (38 : Byte) ∉ x) :
    splitByte 38 (s ++ segs.flatMap (fun x => 38 :: x)) = s :: segs := by
  induction segs generalizing s with
  | nil => simpa using splitByte_clean s hs
  | cons x segs ih =>
    simp only [List.flatMap_cons, List.cons_append]
    rw [splitByte_append s _ hs, ih x (hsegs x (List.mem_cons_self _ _))
      (fun y hy => hsegs y (List.mem_cons_of_mem _ hy))]

theorem querySegments_clean (v : StringsMap) (keys : List Bytes) :
    ∀ x ∈ querySegments v keys, (38 : Byte) ∉ x ∧ x ≠ [] := by
  intro x hx
  simp only [querySegments, List.mem_flatMap, List.mem_map] at hx
  obtain ⟨k, -, y, -, rfl⟩ := hx
  refine ⟨?_, by simp⟩
  simp only [List.mem_append, List.mem_singleton, not_or]
  exact ⟨⟨QueryEscape_no_amp k, by decide⟩, QueryEscape_no_amp y⟩

/-- The pieces of the encoded form of a map with at least one value are the
escaped pairs `key=value`. -/
theorem splitByte_Encode (v : StringsMap) (seg : Bytes)
    (h : seg ∈ querySegments v (sortStrings v.keys)) :
    seg ∈ splitByte 38 (Values.Encode v) := by
  have hclean := querySegments_clean v (sortStrings v.keys)
  rw [Values.Encode, encodeKeys_eq]
  rcases hseg : querySegments v (sortStrings v.keys) with _ | ⟨s, segs⟩
  · rw [hseg] at h; cases h
  · rw [hseg] at h hclean
    rw [joinOnto_nil s segs (hclean s (List.mem_cons_self _ _)).2,
      splitByte_join s segs (hclean s (List.mem_cons_self _ _)).1
        (fun x hx => (hclean x (List.mem_cons_of_mem _ hx)).1)]
    exact h

/-- After `Values.Add(key, value)`, the encoded query has the pair of the
escaped key and the escaped value. -/
theorem queryHas_Add (v : StringsMap) (key value : Bytes) :
    queryHas (Values.Encode (Values.Add v key value)) (QueryEscape key) (QueryEscape value) =
      true := by
  simp only [queryHas, List.contains_iff_exists_mem_beq, beq_iff_eq, exists_eq_right']
  apply splitByte_Encode
  simp only [querySegments, List.mem_flatMap, List.mem_map]
  refine ⟨key, ?_, value, ?_, rfl⟩
  · rw [mem_sortStrings]
    exact mem_keys_set _ _ _
  · simp [Values.Add, get_set_self]

theorem header_Add_Values (h : StringsMap) (key value : Bytes) :
    value ∈ Header.Values (Header.Add h key value) key := by
  simp [Header.Values, Header.Add, get_set_self]

/-! ## Theorems -/

/-- C1: whenever the presigner returns a presigned request without error,
`getToken` returns a token that starts with the prefix `k8s-aws-v1.` and holds
no base64 padding character `=`. -/
theorem getToken_prefix_no_padding (presignSts : PresignClient) (clusterName : Bytes)
    (req : PresignedHTTPRequest) (h : presignSts (AddEKSId clusterName) = .ok req) :
    ∃ token, getToken presignSts clusterName = .ok token ∧
      ascii "k8s-aws-v1." <+: token ∧ (61 : Byte) ∉ token := by
  refine ⟨encodeToken req.URL, ?_, ?_, encodeToken_no_pad _⟩
  · simp [getToken, h]
  · exact ⟨_, rfl⟩

/-- C1, at a presigner that returns the URL `https://sts.amazonaws.com/`. -/
theorem getToken_prefix_no_padding_witness :
    ∃ token, getToken (fun _ => .ok ⟨ascii "https://sts.amazonaws.com/", ascii "GET", []⟩)
        (ascii "my-cluster") = .ok token ∧
      ascii "k8s-aws-v1." <+: token ∧ (61 : Byte) ∉ token :=
  getToken_prefix_no_padding _ _ ⟨ascii "https://sts.amazonaws.com/", ascii "GET", []⟩ rfl

/-- C2: for every presigned URL (any byte sequence of any length), the token of
`getToken` is the prefix `k8s-aws-v1.` followed by the URL-safe unpadded base64
encoding of the URL bytes, and stripping the prefix and decoding the remainder
strictly with the unpadded URL-safe alphabet succeeds with exactly those bytes. -/
theorem getToken_decodes (presignSts : PresignClient) (clusterName : Bytes)
    (req : PresignedHTTPRequest) (h : presignSts (AddEKSId clusterName) = .ok req) :
    getToken presignSts clusterName =
        .ok (ascii "k8s-aws-v1." ++ (URLEncoding.WithPadding NoPadding).EncodeToString req.URL) ∧
      (cutPrefix
          (ascii "k8s-aws-v1." ++ (URLEncoding.WithPadding NoPadding).EncodeToString req.URL)
          (ascii "k8s-aws-v1.")).bind
        (URLEncoding.WithPadding NoPadding).decodeUnpadded = some req.URL :=
  ⟨getToken_ok presignSts clusterName req h, decodeToken_encodeToken req.URL⟩

/-- C2, at a URL of 26 bytes (a length that leaves a final group of two bytes). -/
theorem getToken_decodes_witness :
    getToken (fun _ => .ok ⟨ascii "https://sts.amazonaws.com/", ascii "GET", []⟩)
        (ascii "my-cluster") =
        .ok (ascii "k8s-aws-v1." ++
          (URLEncoding.WithPadding NoPadding).EncodeToString (ascii "https://sts.amazonaws.com/")) ∧
      (cutPrefix
          (ascii "k8s-aws-v1." ++
            (URLEncoding.WithPadding NoPadding).EncodeToString (ascii "https://sts.amazonaws.com/"))
          (ascii "k8s-aws-v1.")).bind
        (URLEncoding.WithPadding NoPadding).decodeUnpadded = some (ascii "https://sts.amazonaws.com/") :=
  getToken_decodes _ _ ⟨ascii "https://sts.amazonaws.com/", ascii "GET", []⟩ rfl

/-- C3: augment-then-sign.  For every HTTP request that enters the "AddEKSId"
build step and every cluster name, there is one request that the step hands to
the next handler, whatever that handler is; its encoded query string has the
parameter `X-Amz-Expires` with the value `60`, and its header `x-k8s-aws-id`
(stored under the canonical key `X-K8s-Aws-Id`) carries the cluster name. -/
theorem AddEKSId_augments_before_next (clusterName : Bytes) (req : Request) :
    ∃ augmented : Request,
      (∀ next : BuildHandler,
        AddEKSId clusterName ⟨.http req⟩ next = next ⟨.http augmented⟩) ∧
      queryHas augmented.URL.RawQuery (ascii "X-Amz-Expires") (ascii "60") = true ∧
      clusterName ∈ Header.Values augmented.Header (ascii "x-k8s-aws-id") ∧
      clusterName ∈ augmented.Header.get (ascii "X-K8s-Aws-Id") := by
  refine ⟨augment clusterName req, fun next => rfl, ?_, ?_, ?_⟩
  · have h := queryHas_Add (parseQuery req.URL.RawQuery) EXPIRE_PARAM EXPIRE_PARAM_VALUE
    have e1 : QueryEscape EXPIRE_PARAM = ascii "X-Amz-Expires" := by decide
    have e2 : QueryEscape EXPIRE_PARAM_VALUE = ascii "60" := by decide
    rw [e1, e2] at h
    exact h
  · exact header_Add_Values req.Header K8S_AWS_ID_HEADER clusterName
  · have h := header_Add_Values req.Header K8S_AWS_ID_HEADER clusterName
    have e : CanonicalMIMEHeaderKey K8S_AWS_ID_HEADER = ascii "X-K8s-Aws-Id" := by decide
    rw [Header.Values, e] at h
    exact h

/-- C4 (amended): `getExecAuth` is total, its result reads as the JSON object
with exactly the members `apiVersion`, `kind` and `status`, the latter an object
whose only member is `token`; the token member holds the token coerced to valid
UTF-8, which is the token itself whenever the token is valid UTF-8. -/
theorem getExecAuth_total (t : Bytes) :
    ∃ out, getExecAuth t = .ok out ∧
      parseJSON out = some (JSON.obj [
        (ascii "apiVersion", JSON.str (ascii "client.authentication.k8s.io/v1beta1")),
        (ascii "kind", JSON.str (ascii "ExecCredential")),
        (ascii "status", JSON.obj [(ascii "token", JSON.str (coerceUTF8 t))])]) ∧
      (ValidString t = true → coerceUTF8 t = t) := by
  refine ⟨_, getExecAuth_layout t, ?_, coerceUTF8_valid t⟩
  have h1 : coerceUTF8 API_VERSION = ascii "client.authentication.k8s.io/v1beta1" := by decide
  have h2 : coerceUTF8 KIND = ascii "ExecCredential" := by decide
  unfold parseJSON
  generalize hlen : List.length _ = len
  obtain ⟨n, rfl⟩ : ∃ n, len = n + 7 := ⟨len - 7, by
    rw [← hlen]
    simp only [List.length_cons, List.length_append]
    omega⟩
  rw [parseValue_envelope n API_VERSION KIND t [], h1, h2]
  rfl

/-- C4, at the token `k8s-aws-v1.YQ`. -/
theorem getExecAuth_total_witness :
    ∃ out, getExecAuth (ascii "k8s-aws-v1.YQ") = .ok out ∧
      parseJSON out = some (JSON.obj [
        (ascii "apiVersion", JSON.str (ascii "client.authentication.k8s.io/v1beta1")),
        (ascii "kind", JSON.str (ascii "ExecCredential")),
        (ascii "status", JSON.obj [(ascii "token", JSON.str (ascii "k8s-aws-v1.YQ"))])]) := by
  obtain ⟨out, h1, h2, h3⟩ := getExecAuth_total (ascii "k8s-aws-v1.YQ")
  refine ⟨out, h1, ?_⟩
  rw [h2, h3 (by decide)]

/-- C4 fails as stated at the token made of the single byte `0xFF`, which is not
valid UTF-8: the envelope is produced without error, and its token member holds
the three bytes of U+FFFD, not the token. -/
theorem getExecAuth_invalid_utf8 :
    getExecAuth [0xFF] = .ok
        (ascii ("\x7b\"apiVersion\":\"client.authentication.k8s.io/v1beta1\"," ++
          "\"kind\":\"ExecCredential\",\"status\":\x7b\"token\":\"\\ufffd\"\x7d\x7d")) ∧
      parseJSON
          (ascii ("\x7b\"apiVersion\":\"client.authentication.k8s.io/v1beta1\"," ++
            "\"kind\":\"ExecCredential\",\"status\":\x7b\"token\":\"\\ufffd\"\x7d\x7d")) =
        some (JSON.obj [
          (ascii "apiVersion", JSON.str (ascii "client.authentication.k8s.io/v1beta1")),
          (ascii "kind", JSON.str (ascii "ExecCredential")),
          (ascii "status", JSON.obj [(ascii "token", JSON.str [0xEF, 0xBF, 0xBD])])]) ∧
      parseJSON
          (ascii ("\x7b\"apiVersion\":\"client.authentication.k8s.io/v1beta1\"," ++
            "\"kind\":\"ExecCredential\",\"status\":\x7b\"token\":\"\\ufffd\"\x7d\x7d")) ≠
        some (JSON.obj [
          (ascii "apiVersion", JSON.str (ascii "client.authentication.k8s.io/v1beta1")),
          (ascii "kind", JSON.str (ascii "ExecCredential")),
          (ascii "status", JSON.obj [(ascii "token", JSON.str [0xFF])])]) := by
  have hp : parseJSON
      (ascii ("\x7b\"apiVersion\":\"client.authentication.k8s.io/v1beta1\"," ++
        "\"kind\":\"ExecCredential\",\"status\":\x7b\"token\":\"\\ufffd\"\x7d\x7d")) =
      some (JSON.obj [
        (ascii "apiVersion", JSON.str (ascii "client.authentication.k8s.io/v1beta1")),
        (ascii "kind", JSON.str (ascii "ExecCredential")),
        (ascii "status", JSON.obj [(ascii "token", JSON.str [0xEF, 0xBF, 0xBD])])]) := by
    rfl
  refine ⟨rfl, hp, ?_⟩
  rw [hp]
  intro h
  simp only [Option.some.injEq, JSON.obj.injEq, List.cons.injEq, Prod.mk.injEq, JSON.str.injEq,
    and_true, true_and] at h
  revert h
  decide

/-- C5: no partial output.  In a run of `main` with a cluster name, a failure of
configuration loading, of `getToken` or of `getExecAuth` writes one diagnostic
line to the error stream, writes nothing to standard output and ends the run
before any later step; and in every run standard output receives either
nothing or exactly one line, the envelope built from the token, the latter only
when all three steps succeeded. -/
theorem main_no_partial_output (w : World) (flags : Flags) :
    (flags.clusterName ≠ [] →
      (∀ err, w.LoadDefaultConfig = .error err →
        stderrOf (main w flags) = [println (ascii "Failed to load AWS config: ") err] ∧
          stdoutOf (main w flags) = [] ∧ stepsOf (main w flags) = [.loadConfig]) ∧
      (∀ cfg err, w.LoadDefaultConfig = .ok cfg →
        getToken (w.Presign (clientConfig flags cfg)) flags.clusterName = .error err →
        stderrOf (main w flags) = [println (ascii "Failed to fetch STS token: ") err] ∧
          stdoutOf (main w flags) = [] ∧ stepsOf (main w flags) = [.loadConfig, .getToken]) ∧
      (∀ cfg token err, w.LoadDefaultConfig = .ok cfg →
        getToken (w.Presign (clientConfig flags cfg)) flags.clusterName = .ok token →
        getExecAuthWith w.Marshal token = .error err →
        stderrOf (main w flags) = [println (ascii "Failed to generate ExecCredential: ") err] ∧
          stdoutOf (main w flags) = [] ∧
          stepsOf (main w flags) = [.loadConfig, .getToken, .getExecAuth])) ∧
    (stdoutOf (main w flags) = [] ∨
      ∃ cfg token auth, w.LoadDefaultConfig = .ok cfg ∧
        getToken (w.Presign (clientConfig flags cfg)) flags.clusterName = .ok token ∧
        getExecAuthWith w.Marshal token = .ok auth ∧
        stdoutOf (main w flags) = [auth ++ [10]] ∧ stderrOf (main w flags) = []) := by
  refine ⟨fun hc => ⟨?_, ?_, ?_⟩, ?_⟩
  · intro err h1
    simp [main, hc, h1, stderrOf, stdoutOf, stepsOf]
  · intro cfg err h1 h2
    simp [main, hc, h1, h2, stderrOf, stdoutOf, stepsOf]
  · intro cfg token err h1 h2 h3
    simp [main, hc, h1, h2, h3, stderrOf, stdoutOf, stepsOf]
  · by_cases hc : flags.clusterName = []
    · left; simp [main, hc, stdoutOf]
    · cases h1 : w.LoadDefaultConfig with
      | error err => left; simp [main, hc, h1, stdoutOf]
      | ok cfg =>
        cases h2 : getToken (w.Presign (clientConfig flags cfg)) flags.clusterName with
        | error err => left; simp [main, hc, h1, h2, stdoutOf]
        | ok token =>
          cases h3 : getExecAuthWith w.Marshal token with
          | error err => left; simp [main, hc, h1, h2, h3, stdoutOf]
          | ok auth =>
            right
            exact ⟨cfg, token, auth, rfl, h2, h3, by simp [main, hc, h1, h2, h3, stdoutOf],
              by simp [main, hc, h1, h2, h3, stderrOf]⟩

/-- C5, at a run for the cluster `my-cluster` in which the configuration loads
and the presigner fails. -/
theorem main_no_partial_output_witness :
    stderrOf (main ⟨.ok ⟨ascii "us-east-1", .resolved 0⟩,
        fun _ _ => .error (ascii "no credentials"), Marshal⟩
        ⟨[], ascii "my-cluster", []⟩) =
      [println (ascii "Failed to fetch STS token: ") (ascii "no credentials")] ∧
    stdoutOf (main ⟨.ok ⟨ascii "us-east-1", .resolved 0⟩,
        fun _ _ => .error (ascii "no credentials"), Marshal⟩
        ⟨[], ascii "my-cluster", []⟩) = [] ∧
    stepsOf (main ⟨.ok ⟨ascii "us-east-1", .resolved 0⟩,
        fun _ _ => .error (ascii "no credentials"), Marshal⟩
        ⟨[], ascii "my-cluster", []⟩) = [.loadConfig, .getToken] :=
  ((main_no_partial_output
    ⟨.ok ⟨ascii "us-east-1", .resolved 0⟩, fun _ _ => .error (ascii "no credentials"), Marshal⟩
    ⟨[], ascii "my-cluster", []⟩).1 (by decide)).2.1
    ⟨ascii "us-east-1", .resolved 0⟩ (ascii "no credentials") rfl rfl

/-- C6: with an empty cluster name, whatever the region and the role are, `main`
prints the usage text and returns: no configuration is loaded, no token and no
envelope is computed, and nothing is written to standard output. -/
theorem main_empty_cluster (w : World) (region roleArn : Bytes) :
    main w ⟨region, [], roleArn⟩ = [Event.usage] ∧
      stepsOf (main w ⟨region, [], roleArn⟩) = [] ∧
      stdoutOf (main w ⟨region, [], roleArn⟩) = [] := by
  simp [main, stepsOf, stdoutOf]

/-- C9: a token returned by `getToken` consists only of bytes that the JSON
encoder leaves unescaped (bytes of the prefix and symbols of the alphabet
A-Z, a-z, 0-9, `-`, `_`), and `getExecAuth` applied to it returns exactly the
compact object with the members `apiVersion`, `kind`, `status` in that order and
the token embedded verbatim. -/
theorem getExecAuth_token_verbatim (presignSts : PresignClient) (clusterName token : Bytes)
    (h : getToken presignSts clusterName = .ok token) :
    (∀ b ∈ token,
        (b ∈ ascii "k8s-aws-v1." ∨
          b ∈ ascii "ABCDEFGHIJKLMNOPQRSTUVWXYZabcdefghijklmnopqrstuvwxyz0123456789-_") ∧
        htmlSafeSet b = true) ∧
      getExecAuth token = .ok
        (ascii ("\x7b\"apiVersion\":\"client.authentication.k8s.io/v1beta1\"," ++
            "\"kind\":\"ExecCredential\",\"status\":\x7b\"token\":\"") ++
          token ++ ascii "\"\x7d\x7d") := by
  obtain ⟨req, -, rfl⟩ := getToken_eq_ok presignSts clusterName token h
  have hmem := encodeToken_mem req.URL
  have hsafe : ∀ b ∈ encodeToken req.URL, htmlSafeSet b = true :=
    fun b hb => safe_of_mem b (hmem b hb)
  refine ⟨fun b hb => ⟨hmem b hb, hsafe b hb⟩, ?_⟩
  have h1 : appendString API_VERSION = [34] ++ API_VERSION ++ [34] := by decide
  have h2 : appendString KIND = [34] ++ KIND ++ [34] := by decide
  have h3 : appendString (ascii "token") = [34] ++ ascii "token" ++ [34] := by decide
  simp only [getExecAuth, getExecAuthWith, Marshal, mapEncoder, sortEntries, insertEntry,
    encodeEntries, appendString_safe _ hsafe, h1, h2, h3]
  simp only [List.append_assoc, List.cons_append, List.nil_append, List.append_nil, if_true]
  rfl

/-- C9, at the token of the URL `https://sts.amazonaws.com/`. -/
theorem getExecAuth_token_verbatim_witness :
    (∀ b ∈ encodeToken (ascii "https://sts.amazonaws.com/"),
        (b ∈ ascii "k8s-aws-v1." ∨
          b ∈ ascii "ABCDEFGHIJKLMNOPQRSTUVWXYZabcdefghijklmnopqrstuvwxyz0123456789-_") ∧
        htmlSafeSet b = true) ∧
      getExecAuth (encodeToken (ascii "https://sts.amazonaws.com/")) = .ok
        (ascii ("\x7b\"apiVersion\":\"client.authentication.k8s.io/v1beta1\"," ++
            "\"kind\":\"ExecCredential\",\"status\":\x7b\"token\":\"") ++
          encodeToken (ascii "https://sts.amazonaws.com/") ++ ascii "\"\x7d\x7d") :=
  getExecAuth_token_verbatim
    (fun _ => .ok ⟨ascii "https://sts.amazonaws.com/", ascii "GET", []⟩) (ascii "my-cluster")
    _ rfl

/-- C10: the token encoding is injective: two runs of `getToken` that return
equal tokens were given byte-for-byte equal presigned URLs. -/
theorem getToken_injective (presign1 presign2 : PresignClient) (cluster1 cluster2 : Bytes)
    (req1 req2 : PresignedHTTPRequest)
    (h1 : presign1 (AddEKSId cluster1) = .ok req1)
    (h2 : presign2 (AddEKSId cluster2) = .ok req2)
    (htok : getToken presign1 cluster1 = getToken presign2 cluster2) :
    req1.URL = req2.URL := by
  rw [getToken_ok _ _ _ h1, getToken_ok _ _ _ h2] at htok
  have h := congrArg decodeToken (Except.ok.inj htok)
  rw [decodeToken_encodeToken, decodeToken_encodeToken] at h
  exact Option.some.inj h

/-- C10, at two presigners that return the same one-byte URL and report
different signed headers. -/
theorem getToken_injective_witness :
    getToken (fun _ => .ok ⟨ascii "a", ascii "GET", []⟩) (ascii "c1") =
        getToken (fun _ => .ok ⟨ascii "a", ascii "GET", [(ascii "Host", [])]⟩) (ascii "c2") ∧
      (⟨ascii "a", ascii "GET", []⟩ : PresignedHTTPRequest).URL =
        (⟨ascii "a", ascii "GET", [(ascii "Host", [])]⟩ : PresignedHTTPRequest).URL :=
  ⟨rfl, getToken_injective (fun _ => .ok ⟨ascii "a", ascii "GET", []⟩)
    (fun _ => .ok ⟨ascii "a", ascii "GET", [(ascii "Host", [])]⟩) (ascii "c1") (ascii "c2")
    ⟨ascii "a", ascii "GET", []⟩ ⟨ascii "a", ascii "GET", [(ascii "Host", [])]⟩ rfl rfl rfl⟩

end EksAuth
